import Mathlib

/-!
# Verification of the slow-query-log parser (`package slow`)

Shallow embedding of `SlowLogParser` from the repository source.  Lines are
modelled as `List Char`, one `Char` per byte (the formats involved are ASCII).
`bufio.Reader.ReadString('\n')` returns a final unterminated chunk together
with `io.EOF`, and the loop in `Start` breaks on that error without
processing the chunk, so the input is faithfully a list of the
newline-terminated lines (each stored here without its trailing `'\n'`).
The `uint64` fields `bytesRead`/`lineOffset` are modelled as `Nat` with
explicit reduction modulo `2 ^ 64`.  The Go channels are modelled by two
oracles: `cs k` tells whether the non-blocking `select` on `stopChan` at the
top of loop iteration `k` observes the stop signal, and `ss n` tells whether
the `select` in `sendEvent` for the `n`-th send attempt observes the stop
signal instead of the consumer accepting the event.  Runtime panics
(indexing a `nil` regexp submatch slice, and `l.Panicf` in `sendEvent`) are
modelled as `Except.error` outcomes.
-/

namespace SlowLog

/-- Modulus of the Go `uint64` fields `bytesRead` and `lineOffset`. -/
def W : Nat := 2 ^ 64

/-- Go regexp `\s` (ASCII): space, tab, newline, form feed, carriage return. -/
def isSpaceGo (c : Char) : Bool :=
  c = ' ' || c = '\t' || c = '\n' || c = '\x0c' || c = '\r'

/-- Go regexp `\S`. -/
def notSpace (c : Char) : Bool := !isSpaceGo c

/-- Character class `[A-Z]`. -/
def isUpperAZ (c : Char) : Bool := 'A' ≤ c && c ≤ 'Z'

/-- Go regexp `\w` (ASCII): letters, digits, underscore. -/
def isWordChar (c : Char) : Bool := c.isAlphanum || c = '_'

/-- Go `strings.TrimSuffix`: drop one occurrence of `suf` when it is a suffix. -/
def trimSuffixL (l suf : List Char) : List Char :=
  if suf.isSuffixOf l then l.take (l.length - suf.length) else l

/-- Go `strings.TrimPrefix`: drop one occurrence of `pre` when it is a prefix. -/
def trimPre (l pre : List Char) : List Char :=
  if pre.isPrefixOf l then l.drop pre.length else l

/-- Go `strings.TrimRight(s, ";")`: drop every trailing semicolon. -/
def trimRightSemi (l : List Char) : List Char :=
  (l.reverse.dropWhile (fun c => c = ';')).reverse

/-- `pat` occurs as a contiguous substring of the second argument. -/
def hasSub (pat : List Char) : List Char → Bool
  | [] => pat.isEmpty
  | l@(_ :: r) => pat.isPrefixOf l || hasSub pat r

/-- Tail `\s*[A-Z]` of `headerRe` once at least one space was consumed:
zero or more further `\s` characters, then an uppercase letter. -/
def spacesThenUpper : List Char → Bool
  | [] => false
  | c :: r => isUpperAZ c || (isSpaceGo c && spacesThenUpper r)

/-- Model of `headerRe.MatchString` for `headerRe = ^#\s+[A-Z]` (the pattern
is anchored, so the match must start at the first byte). -/
def headerMatch : List Char → Bool
  | '#' :: c :: r => isSpaceGo c && spacesThenUpper r
  | _ => false

/-- Body `\S+\s{1,2}\S+` of `timeRe`'s capture group, anchored at the head of
`r`.  The leading `\S+` is greedy; shortening it cannot help, because the
following `\s` never matches a non-space, so the maximal run is complete.
`\s{1,2}` prefers two spaces; with two spaces the next `\S+` must be
nonempty, and on failure backtracking to one space places the second space
under `\S+`, which fails, so no further alternative exists. -/
def timeTail (r : List Char) : Option (List Char) :=
  let s1 := r.takeWhile notSpace
  if s1.isEmpty then none
  else
    match r.dropWhile notSpace with
    | [] => none
    | a :: r2 =>
      match r2 with
      | [] => none
      | b :: r3 =>
        if isSpaceGo b then
          let s2 := r3.takeWhile notSpace
          if s2.isEmpty then none else some (s1 ++ a :: b :: s2)
        else
          some (s1 ++ a :: r2.takeWhile notSpace)

/-- One attempt of `timeRe = Time: (\S+\s{1,2}\S+)` anchored at the head;
returns capture group 1. -/
def timeMatchAt (l : List Char) : Option (List Char) :=
  if (("Time: ").toList).isPrefixOf l then timeTail (l.drop 6) else none

/-- Model of `timeRe.FindStringSubmatch` (leftmost-first search); `none`
models the `nil` result. -/
def timeMatch : List Char → Option (List Char)
  | [] => none
  | l@(_ :: r) =>
    match timeMatchAt l with
    | some g => some g
    | none => timeMatch r

/-- One attempt of `adminRe = command: (.+)` anchored at the head; `.+` is
greedy and nothing follows it, so the capture is the whole remainder, which
must be nonempty (lines contain no `'\n'`, so `.` matches every character). -/
def adminMatchAt (l : List Char) : Option (List Char) :=
  if (("command: ").toList).isPrefixOf l then
    match l.drop 9 with
    | [] => none
    | r => some r
  else none

/-- Model of `adminRe.FindStringSubmatch` (leftmost-first search). -/
def adminMatch : List Char → Option (List Char)
  | [] => none
  | l@(_ :: r) =>
    match adminMatchAt l with
    | some g => some g
    | none => adminMatch r

/-- Tail `@ (\S*) \[(.*)\]` of `userRe`, anchored at the head; returns capture
group 2 (the host).  `(\S*)` is greedy and complete as a maximal run (a
shorter run would put a non-space under the following literal space);
`(.*)\]` succeeds exactly when a `']'` occurs in the remainder. -/
def userTailAt : List Char → Option (List Char)
  | '@' :: ' ' :: r =>
    match r.dropWhile notSpace with
    | ' ' :: '[' :: r3 => if r3.contains ']' then some (r.takeWhile notSpace) else none
    | _ => none
  | _ => none

/-- The lazy `.*?` before that tail: succeed at the first position where the
tail matches. -/
def userTailScan : List Char → Option (List Char)
  | [] => none
  | l@(_ :: r) =>
    match userTailAt l with
    | some g => some g
    | none => userTailScan r

/-- First alternative `[^\[]+` of `userRe`'s group 1, greedy with
backtracking: try capture lengths from `k` down to `1`, matching the rest of
the pattern after each candidate.  Returns (group 1, group 2). -/
def userAlt1 (l : List Char) : Nat → Option (List Char × List Char)
  | 0 => none
  | k + 1 =>
    match userTailScan (l.drop (k + 1)) with
    | some g2 => some (l.take (k + 1), g2)
    | none => userAlt1 l k

/-- Second alternative `\[[^[]+\]` of group 1 (`l` is the text after the
opening `'['`): the inner `[^[]+` is greedy with backtracking, so candidate
splits before a `']'` are tried from the longest down. -/
def userAlt2 (l : List Char) : Nat → Option (List Char × List Char)
  | 0 => none
  | j + 1 =>
    match l.drop (j + 1) with
    | ']' :: rest =>
      match userTailScan rest with
      | some g2 => some ('[' :: l.take (j + 1) ++ [']'], g2)
      | none => userAlt2 l j
    | _ => userAlt2 l j

/-- One attempt of `userRe = User@Host: ([^\[]+|\[[^[]+\]).*?@ (\S*) \[(.*)\]`
anchored where the literal begins; alternative 1 (with all its backtracking)
is preferred over alternative 2. -/
def userMatchAt (l : List Char) : Option (List Char × List Char) :=
  if (("User@Host: ").toList).isPrefixOf l then
    let r := l.drop 11
    match userAlt1 r (r.takeWhile (fun c => c != '[')).length with
    | some p => some p
    | none =>
      match r with
      | '[' :: r2 => userAlt2 r2 (r2.takeWhile (fun c => c != '[')).length
      | _ => none
  else none

/-- Model of `userRe.FindStringSubmatch` / `userRe.MatchString`
(leftmost-first search); returns (group 1 = user, group 2 = host). -/
def userMatch : List Char → Option (List Char × List Char)
  | [] => none
  | l@(_ :: r) =>
    match userMatchAt l with
    | some p => some p
    | none => userMatch r

/-- One attempt of `metricsRe = (\w+): (\S+|\z)` anchored at the head; on
success returns the two captures and the remainder of the text after the
match.  `\w+` is greedy and complete as a maximal run (a shorter run leaves
a word character where `':'` is required); `\S+` is preferred over `\z`,
which only matches at the end of the text. -/
def metricsMatchAt (l : List Char) : Option ((List Char × List Char) × List Char) :=
  let w := l.takeWhile isWordChar
  if w.isEmpty then none
  else
    match l.drop w.length with
    | ':' :: ' ' :: r2 =>
      let v := r2.takeWhile notSpace
      if v.isEmpty then
        if r2.isEmpty then some ((w, []), []) else none
      else some ((w, v), r2.drop v.length)
    | _ => none

/-- Fueled scan for `FindAllStringSubmatch`: on failure advance one
character; on success continue after the match (non-overlapping).  Every
step consumes at least one character, so fuel equal to the text length is
enough for the scan to run to completion. -/
def metricsFindAllAux : Nat → List Char → List (List Char × List Char)
  | 0, _ => []
  | _ + 1, [] => []
  | fuel + 1, l@(_ :: rest) =>
    match metricsMatchAt l with
    | some (p, r) => p :: metricsFindAllAux fuel r
    | none => metricsFindAllAux fuel rest

/-- Model of `metricsRe.FindAllStringSubmatch(line, -1)`. -/
def metricsFindAll (l : List Char) : List (List Char × List Char) :=
  metricsFindAllAux l.length l

/-- Model of `setRe.MatchString` for
`setRe = SET (?:last_insert_id|insert_id|timestamp)`: the line contains one
of the three literals. -/
def setMatch (l : List Char) : Bool :=
  hasSub (("SET last_insert_id").toList) l ||
  hasSub (("SET insert_id").toList) l ||
  hasSub (("SET timestamp").toList) l

/-- Numeric value of a digit string. -/
def digitsVal (ds : List Char) : Nat :=
  ds.foldl (fun a c => a * 10 + (c.toNat - 48)) 0

/-- Optional sign: returns (negative?, rest). -/
def parseSign : List Char → Bool × List Char
  | '+' :: r => (false, r)
  | '-' :: r => (true, r)
  | r => (false, r)

/-- Exponent part `[eE][+-]?digits` (or nothing) applied to mantissa `m`;
the whole string must be consumed (`strconv.ParseFloat` rejects trailing
garbage). -/
def parseExpPart (m : Rat) : List Char → Option Rat
  | [] => some m
  | c :: r =>
    if c = 'e' || c = 'E' then
      match parseSign r with
      | (neg, r2) =>
        let ds := r2.takeWhile Char.isDigit
        if ds.isEmpty || !(r2.drop ds.length).isEmpty then none
        else some (if neg then m / 10 ^ digitsVal ds else m * 10 ^ digitsVal ds)
    else none

/-- Decimal body `digits[.digits] | .digits` with optional exponent. -/
def parseFloatCore (l : List Char) : Option Rat :=
  let ip := l.takeWhile Char.isDigit
  match l.drop ip.length with
  | '.' :: r2 =>
    let fp := r2.takeWhile Char.isDigit
    if ip.isEmpty && fp.isEmpty then none
    else
      parseExpPart ((digitsVal ip : Rat) + (digitsVal fp : Rat) / (10 : Rat) ^ fp.length)
        (r2.drop fp.length)
  | r1 =>
    if ip.isEmpty then none else parseExpPart (digitsVal ip : Rat) r1

/-- Model of `val, _ := strconv.ParseFloat(s, 32)` as used by the parser: the
numeric value of a decimal token, and `0` when the token is not a number
(the error is discarded by the caller).  The value is kept exact as a
rational; `float32` rounding, hexadecimal floats and the `Inf`/`NaN` tokens
are abstracted away — no claim depends on them. -/
def parseFloatGo (l : List Char) : Rat :=
  match parseSign l with
  | (neg, r) =>
    match parseFloatCore r with
    | none => 0
    | some v => if neg then -v else v

/-- Model of `val, _ := strconv.ParseUint(s, 10, 64)` as used by the parser:
`0` when the token is not a plain digit string (syntax error, value 0,
error discarded), and the saturated value `2^64 - 1` on range overflow
(Go returns `MaxUint64` together with `ErrRange`). -/
def parseUintGo (l : List Char) : Nat :=
  if l.isEmpty || l.any (fun c => !c.isDigit) then 0
  else min (digitsVal l) (W - 1)

/-- Meta-line filter of `Start` (lines 141–149): applied to the raw line
including its trailing newline, hence `length + 1`; `line[lineLen-6:] ==
"with:\n"` says the stripped line ends in `"with:"`. -/
def metaLine (line : List Char) : Bool :=
  decide (20 ≤ line.length + 1) &&
    ((line.head? == some '/' && (("with:").toList).isSuffixOf line) ||
     (("Time ").toList).isPrefixOf line ||
     (("Tcp ").toList).isPrefixOf line ||
     (("TCP ").toList).isPrefixOf line)

/-- Assignment `m[k] = v` on a Go map, modelled on an association list:
replace the binding if the key is present, else append it. -/
def updAssoc {α : Type} (m : List (List Char × α)) (k : List Char) (v : α) :
    List (List Char × α) :=
  match m with
  | [] => [(k, v)]
  | (k', v') :: r => if k' = k then (k, v) :: r else (k', v') :: updAssoc r k v

/-- Lookup `m[k]` on a Go map, modelled on an association list. -/
def lookupA {α : Type} (m : List (List Char × α)) (k : List Char) : Option α :=
  match m with
  | [] => none
  | (k', v') :: r => if k' = k then some v' else lookupA r k

/-- Modelled from the spec: the `log.Event` record (its Go definition lives
in the `log` package, outside the provided sources; fields and zero values
follow §3 of the spec and the parser's own usage). -/
structure Event where
  offset : Nat
  ts : List Char
  user : List Char
  host : List Char
  db : List Char
  admin : Bool
  query : List Char
  timeMetrics : List (List Char × Rat)
  numberMetrics : List (List Char × Nat)
  boolMetrics : List (List Char × Bool)
  rateType : List Char
  rateLimit : Nat
deriving DecidableEq

/-- Modelled from the spec: `log.NewEvent()` — a fresh empty event
("created empty when a new header block begins"). -/
def newEvent : Event :=
  { offset := 0, ts := [], user := [], host := [], db := [], admin := false,
    query := [], timeMetrics := [], numberMetrics := [], boolMetrics := [],
    rateType := [], rateLimit := 0 }

/-- `log.Options` as used by the parser: the resume offset and the admin
command filter set (a Go `map[string]bool`, absent keys reading `false`);
the `Debug` flag only controls logging and is omitted. -/
structure Options where
  startOffset : Nat
  filterAdminCommand : List Char → Bool

/-- Mutable fields of `SlowLogParser`.  `sends` is ghost instrumentation
counting send attempts on the event channel, used to index the send-time
stop oracle; it does not influence the parsing logic. -/
structure PState where
  inHeader : Bool
  inQuery : Bool
  headerLines : Nat
  queryLines : Nat
  bytesRead : Nat
  lineOffset : Nat
  stopped : Bool
  sends : Nat
  event : Event
deriving DecidableEq

/-- The runtime panics the parser can raise: `l.Panicf` in `sendEvent`, and
indexing a `nil` `FindStringSubmatch` result in `parseHeader` (for `timeRe`
and `userRe`) and in `parseAdmin` (for `adminRe`). -/
inductive Panic
  | noQueryTime
  | timeNoMatch
  | userNoMatch
  | adminNoMatch
deriving DecidableEq

/-- The key `"Query_time"` checked by `sendEvent`. -/
def qtKey : List Char := ("Query_time").toList

/-- The deferred reset in `sendEvent`: fresh event, zero line counters, and
the caller-chosen next mode. -/
def resetFor (inH inQ : Bool) (st : PState) : PState :=
  { st with event := newEvent, headerLines := 0, queryLines := 0,
            inHeader := inH, inQuery := inQ }

/-- The clean-up applied before emission (source lines 338–340): drop one
`";\n"` suffix from `db` and one `";"` suffix from `query`. -/
def cleaned (ev : Event) : Event :=
  { ev with db := trimSuffixL ev.db ((";\n").toList),
            query := trimSuffixL ev.query ((";").toList) }

/-- `sendEvent` (source lines 316–348).  Missing `Query_time`: panic when no
header line was recorded, silent discard otherwise.  Present: clean `db` and
`query`, then hand the event to the channel — unless the send-time `select`
observes the stop signal, in which case nothing is delivered and the parser
is marked stopped. -/
def sendEvent (ss : Nat → Bool) (inH inQ : Bool) (st : PState) :
    Except Panic (PState × List Event) :=
  match lookupA st.event.timeMetrics qtKey with
  | none =>
    if st.headerLines = 0 then .error .noQueryTime
    else .ok (resetFor inH inQ st, [])
  | some _ =>
    if ss st.sends then
      .ok (resetFor inH inQ { st with sends := st.sends + 1, stopped := true }, [])
    else
      .ok (resetFor inH inQ { st with sends := st.sends + 1 }, [cleaned st.event])

/-- `parseAdmin` (source lines 295–314). -/
def parseAdmin (opt : Options) (ss : Nat → Bool) (st : PState) (line : List Char) :
    Except Panic (PState × List Event) :=
  let st := { st with event := { st.event with admin := true } }
  match adminMatch line with
  | none => .error .adminNoMatch
  | some cmd =>
    let q := trimSuffixL cmd ((";").toList)
    let st := { st with event := { st.event with query := q } }
    if opt.filterAdminCommand q then
      .ok ({ st with inHeader := false, inQuery := false }, [])
    else
      sendEvent ss false false st

/-- The loop body over one `(\w+): (\S+|\z)` pair (source lines 222–247). -/
def applyMetric (ev : Event) (p : List Char × List Char) : Event :=
  if (("_time").toList).isSuffixOf p.1 || (("_wait").toList).isSuffixOf p.1 then
    { ev with timeMetrics := updAssoc ev.timeMetrics p.1 (parseFloatGo p.2) }
  else if p.2 = ("Yes").toList || p.2 = ("No").toList then
    if p.2 = ("Yes").toList then
      { ev with boolMetrics := updAssoc ev.boolMetrics p.1 true }
    else
      { ev with boolMetrics := updAssoc ev.boolMetrics p.1 false }
  else if p.1 = ("Schema").toList then { ev with db := p.2 }
  else if p.1 = ("Log_slow_rate_type").toList then { ev with rateType := p.2 }
  else if p.1 = ("Log_slow_rate_limit").toList then
    { ev with rateLimit := parseUintGo p.2 % 256 }
  else { ev with numberMetrics := updAssoc ev.numberMetrics p.1 (parseUintGo p.2) }

/-- Body of `parseHeader` after its non-matching-line early exit (source
lines 189–248): record the offset on the first header line, bump the header
line counter, then dispatch on the line prefix. -/
def parseHeaderMain (opt : Options) (ss : Nat → Bool) (st : PState) (line : List Char) :
    Except Panic (PState × List Event) :=
  let st := if st.headerLines = 0
    then { st with event := { st.event with offset := st.lineOffset } } else st
  let st := { st with headerLines := st.headerLines + 1 }
  if (("# Time").toList).isPrefixOf line then
    match timeMatch line with
    | none => .error .timeNoMatch
    | some ts =>
      let st := { st with event := { st.event with ts := ts } }
      match userMatch line with
      | none => .ok (st, [])
      | some p =>
        .ok ({ st with event := { st.event with user := p.1, host := p.2 } }, [])
  else if (("# User").toList).isPrefixOf line then
    match userMatch line with
    | none => .error .userNoMatch
    | some p =>
      .ok ({ st with event := { st.event with user := p.1, host := p.2 } }, [])
  else if (("# admin").toList).isPrefixOf line then
    parseAdmin opt ss st line
  else
    .ok ({ st with event := (metricsFindAll line).foldl applyMetric st.event }, [])

/-- `parseQuery` (source lines 251–293).  In the new-header branch the line
matches `headerRe`, so the recursive `p.parseHeader(line)` of the source
takes its matching branch; it is therefore written as `parseHeaderMain`
directly, avoiding mutual recursion. -/
def parseQuery (opt : Options) (ss : Nat → Bool) (st : PState) (line : List Char) :
    Except Panic (PState × List Event) :=
  if (("# admin").toList).isPrefixOf line then
    parseAdmin opt ss st line
  else if headerMatch line then
    match sendEvent ss true false st with
    | .error e => .error e
    | .ok (st1, evs1) =>
      match parseHeaderMain opt ss st1 line with
      | .error e => .error e
      | .ok (st2, evs2) => .ok (st2, evs1 ++ evs2)
  else if st.queryLines = 0 && (("use ").toList).isPrefixOf line then
    .ok ({ st with event :=
      { st.event with db := trimRightSemi (trimPre line (("use ").toList)) } }, [])
  else if setMatch line then
    .ok (st, [])
  else
    let st := if 0 < st.queryLines
      then { st with event := { st.event with query := st.event.query ++ '\n' :: line } }
      else { st with event := { st.event with query := line } }
    .ok ({ st with queryLines := st.queryLines + 1 }, [])

/-- `parseHeader` (source lines 177–249): on a line that no longer matches
`headerRe`, leave header state and hand the same line to `parseQuery`. -/
def parseHeader (opt : Options) (ss : Nat → Bool) (st : PState) (line : List Char) :
    Except Panic (PState × List Event) :=
  if headerMatch line then parseHeaderMain opt ss st line
  else parseQuery opt ss { st with inHeader := false, inQuery := true } line

/-- Offset bookkeeping of `Start` (source lines 123–130), on `uint64`:
`bytesRead += lineLen; lineOffset = bytesRead - lineLen;
if lineOffset != 0 { lineOffset += 1 }`. -/
def advanceOffsets (st : PState) (line : List Char) : PState :=
  let lineLen := (line.length + 1) % W
  let bytesRead := (st.bytesRead + lineLen) % W
  let lo := (bytesRead + W - lineLen) % W
  { st with bytesRead := bytesRead,
            lineOffset := if lo = 0 then lo else (lo + 1) % W }

/-- One iteration of the scanner loop after a line was read (source lines
123–162): update offsets, skip meta lines, then dispatch on the mode. -/
def stepLine (opt : Options) (ss : Nat → Bool) (st : PState) (line : List Char) :
    Except Panic (PState × List Event) :=
  let st := advanceOffsets st line
  if metaLine line then .ok (st, [])
  else if st.inHeader then parseHeader opt ss st line
  else if st.inQuery then parseQuery opt ss st line
  else if headerMatch line then
    parseHeader opt ss { st with inHeader := true, inQuery := false } line
  else .ok (st, [])

/-- The scanner loop of `Start` (source lines 106–163): while not stopped,
poll the stop channel (oracle `cs` at the iteration index), then read the
next line — end of input breaks the loop — and process it. -/
def runLines (opt : Options) (cs ss : Nat → Bool) :
    PState → Nat → List (List Char) → Except Panic (PState × List Event)
  | st, k, lines =>
    if st.stopped then .ok (st, [])
    else if cs k then .ok ({ st with stopped := true }, [])
    else
      match lines with
      | [] => .ok (st, [])
      | line :: rest =>
        match stepLine opt ss st line with
        | .error e => .error e
        | .ok (st1, evs1) =>
          match runLines opt cs ss st1 (k + 1) rest with
          | .error e => .error e
          | .ok (st2, evs2) => .ok (st2, evs1 ++ evs2)

/-- The parser state built by `NewSlowLogParser`: `bytesRead` starts at the
resume offset, everything else at its zero value. -/
def initState (opt : Options) : PState :=
  { inHeader := false, inQuery := false, headerLines := 0, queryLines := 0,
    bytesRead := opt.startOffset % W, lineOffset := 0, stopped := false,
    sends := 0, event := newEvent }

/-- `Start` (source lines 87–173): run the scanner loop over the input and,
unless the loop was cancelled, finalize a trailing event that still has
accumulated query lines. -/
def start (opt : Options) (cs ss : Nat → Bool) (lines : List (List Char)) :
    Except Panic (PState × List Event) :=
  match runLines opt cs ss (initState opt) 0 lines with
  | .error e => .error e
  | .ok (st, evs) =>
    if st.stopped = false ∧ 0 < st.queryLines then
      match sendEvent ss false false st with
      | .error e => .error e
      | .ok (st2, evs2) => .ok (st2, evs ++ evs2)
    else .ok (st, evs)

/-- The event list a run delivered on the channel (empty when it panicked). -/
def emitted (r : Except Panic (PState × List Event)) : List Event :=
  match r with
  | .ok (_, evs) => evs
  | .error _ => []

/-- The emission validity condition checked by `sendEvent`. -/
def qtPresent (ev : Event) : Prop := (lookupA ev.timeMetrics qtKey).isSome = true

/-! ## Structural lemmas about the parsing functions -/

theorem adminPrefix_not_header {line : List Char}
    (h : (("# admin").toList).isPrefixOf line = true) : headerMatch line = false := by
  obtain ⟨t, ht⟩ := List.isPrefixOf_iff_prefix.mp h
  have he : ("# admin").toList = ['#', ' ', 'a', 'd', 'm', 'i', 'n'] := rfl
  rw [he] at ht
  subst ht
  simp [headerMatch, spacesThenUpper, (by decide : isSpaceGo 'a' = false),
    (by decide : isUpperAZ 'a' = false)]

/-- Fields of the deferred reset. -/
theorem resetFor_fields (iH iQ : Bool) (st : PState) :
    (resetFor iH iQ st).headerLines = 0 ∧ (resetFor iH iQ st).queryLines = 0 ∧
    (resetFor iH iQ st).inHeader = iH ∧ (resetFor iH iQ st).inQuery = iQ ∧
    (resetFor iH iQ st).event = newEvent ∧
    (resetFor iH iQ st).bytesRead = st.bytesRead ∧
    (resetFor iH iQ st).lineOffset = st.lineOffset := by
  refine ⟨rfl, rfl, rfl, rfl, rfl, rfl, rfl⟩

/-- `sendEvent`, case: `Query_time` missing, no header line recorded — the
fatal internal panic. -/
theorem sendEvent_panic {ss iH iQ st}
    (h : lookupA st.event.timeMetrics qtKey = none) (h0 : st.headerLines = 0) :
    sendEvent ss iH iQ st = .error .noQueryTime := by
  unfold sendEvent
  rw [h]
  simp [h0]

/-- `sendEvent`, case: `Query_time` missing but a header line was recorded —
silent discard, nothing delivered, state reset. -/
theorem sendEvent_discard {ss iH iQ st}
    (h : lookupA st.event.timeMetrics qtKey = none) (h0 : st.headerLines ≠ 0) :
    sendEvent ss iH iQ st = .ok (resetFor iH iQ st, []) := by
  unfold sendEvent
  rw [h]
  simp [h0]

/-- `sendEvent`, case: valid event and the channel accepts — exactly the
cleaned event is delivered. -/
theorem sendEvent_emit {ss iH iQ st v}
    (h : lookupA st.event.timeMetrics qtKey = some v) (hs : ss st.sends = false) :
    sendEvent ss iH iQ st =
      .ok (resetFor iH iQ { st with sends := st.sends + 1 }, [cleaned st.event]) := by
  unfold sendEvent
  rw [h]
  simp [hs]

/-- `sendEvent`, case: valid event but the stop signal is observed instead of
the consumer — nothing delivered, parser marked stopped. -/
theorem sendEvent_stop {ss iH iQ st v}
    (h : lookupA st.event.timeMetrics qtKey = some v) (hs : ss st.sends = true) :
    sendEvent ss iH iQ st =
      .ok (resetFor iH iQ { st with sends := st.sends + 1, stopped := true }, []) := by
  unfold sendEvent
  rw [h]
  simp [hs]

/-- Characterization of every successful `sendEvent` outcome: the state is
reset, and anything delivered is the current event cleaned up — in
particular it carries `Query_time` and the recorded offset. -/
theorem sendEvent_char {ss iH iQ st st' evs}
    (h : sendEvent ss iH iQ st = .ok (st', evs)) :
    st'.headerLines = 0 ∧ st'.queryLines = 0 ∧ st'.inHeader = iH ∧ st'.inQuery = iQ ∧
    st'.event = newEvent ∧ st'.bytesRead = st.bytesRead ∧ st'.lineOffset = st.lineOffset ∧
    (∀ e ∈ evs, qtPresent e ∧ e = cleaned st.event) := by
  cases hqt : lookupA st.event.timeMetrics qtKey with
  | none =>
    by_cases h0 : st.headerLines = 0
    · rw [sendEvent_panic hqt h0] at h
      exact absurd h (by simp)
    · rw [sendEvent_discard hqt h0] at h
      simp only [Except.ok.injEq, Prod.mk.injEq] at h
      obtain ⟨h1, h2⟩ := h
      subst h1; subst h2
      simp [resetFor]
  | some v =>
    cases hss : ss st.sends with
    | false =>
      rw [sendEvent_emit hqt hss] at h
      simp only [Except.ok.injEq, Prod.mk.injEq] at h
      obtain ⟨h1, h2⟩ := h
      subst h1; subst h2
      simp [resetFor, qtPresent, cleaned, hqt]
    | true =>
      rw [sendEvent_stop hqt hss] at h
      simp only [Except.ok.injEq, Prod.mk.injEq] at h
      obtain ⟨h1, h2⟩ := h
      subst h1; subst h2
      simp [resetFor]

/-- `sendEvent` can only panic when `Query_time` is absent and no header line
was recorded. -/
theorem sendEvent_noQT {ss iH iQ st} (h : 0 < st.headerLines) :
    sendEvent ss iH iQ st ≠ .error .noQueryTime := by
  cases hqt : lookupA st.event.timeMetrics qtKey with
  | none =>
    rw [sendEvent_discard hqt (Nat.pos_iff_ne_zero.mp h)]
    simp
  | some v =>
    cases hss : ss st.sends with
    | false => rw [sendEvent_emit hqt hss]; simp
    | true => rw [sendEvent_stop hqt hss]; simp

/-- `applyMetric` only touches the metric maps, `db`, `rateType` and
`rateLimit`; the event's offset is untouched. -/
theorem applyMetric_offset (ev : Event) (p : List Char × List Char) :
    (applyMetric ev p).offset = ev.offset := by
  unfold applyMetric
  repeat' split
  all_goals rfl

theorem foldl_applyMetric_offset (ps : List (List Char × List Char)) (ev : Event) :
    (ps.foldl applyMetric ev).offset = ev.offset := by
  induction ps generalizing ev with
  | nil => rfl
  | cons p ps ih => rw [List.foldl_cons, ih, applyMetric_offset]

/-- Characterization of every successful `parseAdmin` outcome: both mode
flags end up cleared, offsets are untouched, anything delivered carries
`Query_time`, the recorded offset and the admin marker, and the
header/query line counters are either reset (the event went through
`sendEvent`) or — on the filtered path — left as they were, together with
the event's offset and time metrics. -/
theorem parseAdmin_char {opt ss st line st' evs}
    (h : parseAdmin opt ss st line = .ok (st', evs)) :
    st'.inHeader = false ∧ st'.inQuery = false ∧
    st'.bytesRead = st.bytesRead ∧ st'.lineOffset = st.lineOffset ∧
    (∀ e ∈ evs, qtPresent e ∧ e.offset = st.event.offset ∧ e.admin = true) ∧
    ((st'.headerLines = 0 ∧ st'.queryLines = 0 ∧ st'.event = newEvent) ∨
     (st'.headerLines = st.headerLines ∧ st'.queryLines = st.queryLines ∧
      st'.event.timeMetrics = st.event.timeMetrics ∧
      st'.event.offset = st.event.offset ∧ evs = [])) := by
  unfold parseAdmin at h
  cases ham : adminMatch line with
  | none => rw [ham] at h; exact absurd h (by simp)
  | some cmd =>
    rw [ham] at h
    simp only at h
    split at h
    · simp only [Except.ok.injEq, Prod.mk.injEq] at h
      obtain ⟨h1, h2⟩ := h
      subst h1; subst h2
      refine ⟨rfl, rfl, rfl, rfl, by simp, Or.inr ⟨rfl, rfl, rfl, rfl, rfl⟩⟩
    · have hc := sendEvent_char h
      obtain ⟨c1, c2, c3, c4, c5, c6, c7, c8⟩ := hc
      refine ⟨c3, c4, c6, c7, ?_, Or.inl ⟨c1, c2, c5⟩⟩
      intro e he
      obtain ⟨hq, heq⟩ := c8 e he
      subst heq
      exact ⟨hq, by simp [cleaned], by simp [cleaned]⟩

/-- `parseAdmin` never raises the finalizer panic once a header line was
recorded. -/
theorem parseAdmin_noQT {opt ss st line} (h : 0 < st.headerLines) :
    parseAdmin opt ss st line ≠ .error .noQueryTime := by
  unfold parseAdmin
  cases ham : adminMatch line with
  | none => simp
  | some cmd =>
    simp only
    split
    · simp
    · exact sendEvent_noQT h

/-- Characterization of every successful `parseHeaderMain` outcome on a line
matching `headerRe`: nothing is delivered, the header line counter is
incremented, the counters, flags and offsets are otherwise untouched, and
the event's offset is recorded from `lineOffset` exactly on the first header
line. -/
theorem parseHeaderMain_char {opt ss st line st' evs}
    (hm : headerMatch line = true)
    (h : parseHeaderMain opt ss st line = .ok (st', evs)) :
    evs = [] ∧ st'.headerLines = st.headerLines + 1 ∧
    st'.queryLines = st.queryLines ∧ st'.inHeader = st.inHeader ∧
    st'.inQuery = st.inQuery ∧ st'.bytesRead = st.bytesRead ∧
    st'.lineOffset = st.lineOffset ∧
    st'.event.offset = (if st.headerLines = 0 then st.lineOffset else st.event.offset) := by
  have hadm : ¬ ((("# admin").toList).isPrefixOf line = true) := by
    intro hp
    rw [adminPrefix_not_header hp] at hm
    exact absurd hm (by simp)
  simp only [parseHeaderMain] at h
  by_cases ht : (("# Time").toList).isPrefixOf line = true
  · rw [if_pos ht] at h
    cases htm : timeMatch line with
    | none => simp only [htm] at h; exact absurd h (by simp)
    | some ts =>
      simp only [htm] at h
      cases hum : userMatch line with
      | none =>
        simp only [hum] at h
        simp only [Except.ok.injEq, Prod.mk.injEq] at h
        obtain ⟨h1, h2⟩ := h
        subst h1; subst h2
        by_cases h0 : st.headerLines = 0 <;> simp [h0]
      | some p =>
        simp only [hum] at h
        simp only [Except.ok.injEq, Prod.mk.injEq] at h
        obtain ⟨h1, h2⟩ := h
        subst h1; subst h2
        by_cases h0 : st.headerLines = 0 <;> simp [h0]
  · rw [if_neg ht] at h
    by_cases hu : (("# User").toList).isPrefixOf line = true
    · rw [if_pos hu] at h
      cases hum : userMatch line with
      | none => simp only [hum] at h; exact absurd h (by simp)
      | some p =>
        simp only [hum] at h
        simp only [Except.ok.injEq, Prod.mk.injEq] at h
        obtain ⟨h1, h2⟩ := h
        subst h1; subst h2
        by_cases h0 : st.headerLines = 0 <;> simp [h0]
    · rw [if_neg hu, if_neg hadm] at h
      simp only [Except.ok.injEq, Prod.mk.injEq] at h
      obtain ⟨h1, h2⟩ := h
      subst h1; subst h2
      by_cases h0 : st.headerLines = 0 <;>
        simp [h0, foldl_applyMetric_offset]

theorem okInj {st1 st' : PState} {evs1 evs : List Event}
    (h : (Except.ok (st1, evs1) : Except Panic (PState × List Event)) = .ok (st', evs)) :
    st' = st1 ∧ evs = evs1 := by
  simp only [Except.ok.injEq, Prod.mk.injEq] at h
  exact ⟨h.1.symm, h.2.symm⟩

theorem errNeOk {e : Panic} {x : PState × List Event} :
    (Except.error e : Except Panic (PState × List Event)) ≠ .ok x := by simp

/-- `parseHeaderMain` never raises the finalizer panic: its only path into
`sendEvent` goes through `parseAdmin` after the header-line counter was
already incremented. -/
theorem parseHeaderMain_noQT {opt ss st line} :
    parseHeaderMain opt ss st line ≠ .error .noQueryTime := by
  simp only [parseHeaderMain]
  by_cases ht : (("# Time").toList).isPrefixOf line = true
  · rw [if_pos ht]
    cases htm : timeMatch line with
    | none => simp
    | some ts => cases hum : userMatch line <;> simp
  · rw [if_neg ht]
    by_cases hu : (("# User").toList).isPrefixOf line = true
    · rw [if_pos hu]
      cases hum : userMatch line with
      | none => simp
      | some p => simp
    · rw [if_neg hu]
      by_cases ha : (("# admin").toList).isPrefixOf line = true
      · rw [if_pos ha]
        exact parseAdmin_noQT (Nat.succ_pos _)
      · rw [if_neg ha]
        simp

/-- The state-machine invariant behind the unreachability of the finalizer
panic: in header or query mode, and as soon as any query line accumulated,
at least one header line has been recorded for the current event. -/
def Inv (st : PState) : Prop :=
  (st.inHeader = true → 0 < st.headerLines) ∧
  (st.inQuery = true → 0 < st.headerLines) ∧
  (0 < st.queryLines → 0 < st.headerLines)

/-- Whatever `parseQuery` delivers carries `Query_time`. -/
theorem parseQuery_evsQT {opt ss st line st' evs}
    (h : parseQuery opt ss st line = .ok (st', evs)) : ∀ e ∈ evs, qtPresent e := by
  simp only [parseQuery] at h
  by_cases ha : (("# admin").toList).isPrefixOf line = true
  · rw [if_pos ha] at h
    exact fun e he => ((parseAdmin_char h).2.2.2.2.1 e he).1
  · rw [if_neg ha] at h
    by_cases hm : headerMatch line = true
    · rw [if_pos hm] at h
      cases hse : sendEvent ss true false st with
      | error e => simp only [hse] at h; exact absurd h errNeOk
      | ok p =>
        obtain ⟨st1, evs1⟩ := p
        simp only [hse] at h
        cases hph : parseHeaderMain opt ss st1 line with
        | error e2 => simp only [hph] at h; exact absurd h errNeOk
        | ok p2 =>
          obtain ⟨st2, evs2⟩ := p2
          simp only [hph] at h
          obtain ⟨h1, h2⟩ := okInj h
          subst h1; subst h2
          intro e he
          rcases List.mem_append.mp he with h' | h'
          · exact ((sendEvent_char hse).2.2.2.2.2.2.2 e h').1
          · rw [(parseHeaderMain_char hm hph).1] at h'; cases h'
    · rw [if_neg hm] at h
      by_cases huse :
          (decide (st.queryLines = 0) && (("use ").toList).isPrefixOf line) = true
      · rw [if_pos huse] at h
        obtain ⟨h1, h2⟩ := okInj h
        subst h1; subst h2
        intro e he; cases he
      · rw [if_neg huse] at h
        by_cases hset : setMatch line = true
        · rw [if_pos hset] at h
          obtain ⟨h1, h2⟩ := okInj h
          subst h1; subst h2
          intro e he; cases he
        · rw [if_neg hset] at h
          obtain ⟨h1, h2⟩ := okInj h
          subst h1; subst h2
          intro e he; cases he

/-- `parseQuery` never raises the finalizer panic once a header line was
recorded. -/
theorem parseQuery_noQT {opt ss st line} (h0 : 0 < st.headerLines) :
    parseQuery opt ss st line ≠ .error .noQueryTime := by
  simp only [parseQuery]
  by_cases ha : (("# admin").toList).isPrefixOf line = true
  · rw [if_pos ha]
    exact parseAdmin_noQT h0
  · rw [if_neg ha]
    by_cases hm : headerMatch line = true
    · rw [if_pos hm]
      cases hse : sendEvent ss true false st with
      | error e =>
        simp only [hse]
        intro hc
        injection hc with hc2
        exact @sendEvent_noQT ss true false st h0 (hc2 ▸ hse)
      | ok p =>
        obtain ⟨st1, evs1⟩ := p
        simp only [hse]
        cases hph : parseHeaderMain opt ss st1 line with
        | error e2 =>
          simp only [hph]
          intro hc
          injection hc with hc2
          exact parseHeaderMain_noQT (hc2 ▸ hph)
        | ok p2 =>
          obtain ⟨st2, evs2⟩ := p2
          simp only [hph]
          simp
    · rw [if_neg hm]
      by_cases huse :
          (decide (st.queryLines = 0) && (("use ").toList).isPrefixOf line) = true
      · rw [if_pos huse]; simp
      · rw [if_neg huse]
        by_cases hset : setMatch line = true
        · rw [if_pos hset]; simp
        · rw [if_neg hset]; simp

/-- `parseQuery` re-establishes the state-machine invariant. -/
theorem parseQuery_inv {opt ss st line st' evs} (h0 : 0 < st.headerLines)
    (h : parseQuery opt ss st line = .ok (st', evs)) : Inv st' := by
  simp only [parseQuery] at h
  by_cases ha : (("# admin").toList).isPrefixOf line = true
  · rw [if_pos ha] at h
    obtain ⟨c1, c2, _, _, _, hd⟩ := parseAdmin_char h
    refine ⟨fun hh => absurd (c1 ▸ hh) (by simp), fun hh => absurd (c2 ▸ hh) (by simp), ?_⟩
    rcases hd with ⟨_, hq, _⟩ | ⟨hh, hq, _, _, _⟩
    · rw [hq]; intro hx; exact absurd hx (by simp)
    · rw [hq, hh]; intro _; exact h0
  · rw [if_neg ha] at h
    by_cases hm : headerMatch line = true
    · rw [if_pos hm] at h
      cases hse : sendEvent ss true false st with
      | error e => simp only [hse] at h; exact absurd h errNeOk
      | ok p =>
        obtain ⟨st1, evs1⟩ := p
        simp only [hse] at h
        cases hph : parseHeaderMain opt ss st1 line with
        | error e2 => simp only [hph] at h; exact absurd h errNeOk
        | ok p2 =>
          obtain ⟨st2, evs2⟩ := p2
          simp only [hph] at h
          obtain ⟨h1, h2⟩ := okInj h
          subst h1; subst h2
          have hc := (parseHeaderMain_char hm hph).2.1
          have hpos : 0 < st'.headerLines := by rw [hc]; exact Nat.succ_pos _
          exact ⟨fun _ => hpos, fun _ => hpos, fun _ => hpos⟩
    · rw [if_neg hm] at h
      by_cases huse :
          (decide (st.queryLines = 0) && (("use ").toList).isPrefixOf line) = true
      · rw [if_pos huse] at h
        obtain ⟨h1, h2⟩ := okInj h
        subst h1; subst h2
        exact ⟨fun _ => h0, fun _ => h0, fun _ => h0⟩
      · rw [if_neg huse] at h
        by_cases hset : setMatch line = true
        · rw [if_pos hset] at h
          obtain ⟨h1, h2⟩ := okInj h
          subst h1; subst h2
          exact ⟨fun _ => h0, fun _ => h0, fun _ => h0⟩
        · rw [if_neg hset] at h
          obtain ⟨h1, h2⟩ := okInj h
          subst h1; subst h2
          refine ⟨fun _ => ?_, fun _ => ?_, fun _ => ?_⟩ <;>
            by_cases hql : 0 < st.queryLines <;>
              simp [hql, h0]

/-- Whatever `parseHeader` delivers carries `Query_time`. -/
theorem parseHeader_evsQT {opt ss st line st' evs}
    (h : parseHeader opt ss st line = .ok (st', evs)) : ∀ e ∈ evs, qtPresent e := by
  simp only [parseHeader] at h
  by_cases hm : headerMatch line = true
  · rw [if_pos hm] at h
    rw [(parseHeaderMain_char hm h).1]
    intro e he; cases he
  · rw [if_neg hm] at h
    exact parseQuery_evsQT h

/-- `parseHeader` never raises the finalizer panic once a header line was
recorded. -/
theorem parseHeader_noQT {opt ss st line} (h0 : 0 < st.headerLines) :
    parseHeader opt ss st line ≠ .error .noQueryTime := by
  simp only [parseHeader]
  by_cases hm : headerMatch line = true
  · rw [if_pos hm]; exact parseHeaderMain_noQT
  · rw [if_neg hm]; exact parseQuery_noQT h0

/-- `parseHeader` re-establishes the state-machine invariant. -/
theorem parseHeader_inv {opt ss st line st' evs} (h0 : 0 < st.headerLines)
    (h : parseHeader opt ss st line = .ok (st', evs)) : Inv st' := by
  simp only [parseHeader] at h
  by_cases hm : headerMatch line = true
  · rw [if_pos hm] at h
    have hc := (parseHeaderMain_char hm h).2.1
    have hpos : 0 < st'.headerLines := by rw [hc]; exact Nat.succ_pos _
    exact ⟨fun _ => hpos, fun _ => hpos, fun _ => hpos⟩
  · rw [if_neg hm] at h
    exact @parseQuery_inv opt ss { st with inHeader := false, inQuery := true }
      line st' evs h0 h

/-- `advanceOffsets` only rewrites `bytesRead` and `lineOffset`. -/
theorem advanceOffsets_fields (st : PState) (line : List Char) :
    (advanceOffsets st line).inHeader = st.inHeader ∧
    (advanceOffsets st line).inQuery = st.inQuery ∧
    (advanceOffsets st line).headerLines = st.headerLines ∧
    (advanceOffsets st line).queryLines = st.queryLines ∧
    (advanceOffsets st line).stopped = st.stopped ∧
    (advanceOffsets st line).event = st.event := by
  exact ⟨rfl, rfl, rfl, rfl, rfl, rfl⟩

/-- Whatever one loop iteration delivers carries `Query_time`. -/
theorem stepLine_evsQT {opt ss st line st' evs}
    (h : stepLine opt ss st line = .ok (st', evs)) : ∀ e ∈ evs, qtPresent e := by
  simp only [stepLine] at h
  by_cases hmeta : metaLine line = true
  · rw [if_pos hmeta] at h
    obtain ⟨h1, h2⟩ := okInj h
    subst h1; subst h2
    intro e he; cases he
  · rw [if_neg hmeta] at h
    by_cases hih : (advanceOffsets st line).inHeader = true
    · rw [if_pos hih] at h
      exact parseHeader_evsQT h
    · rw [if_neg hih] at h
      by_cases hiq : (advanceOffsets st line).inQuery = true
      · rw [if_pos hiq] at h
        exact parseQuery_evsQT h
      · rw [if_neg hiq] at h
        by_cases hm : headerMatch line = true
        · rw [if_pos hm] at h
          exact parseHeader_evsQT h
        · rw [if_neg hm] at h
          obtain ⟨h1, h2⟩ := okInj h
          subst h1; subst h2
          intro e he; cases he

/-- One loop iteration never raises the finalizer panic from an invariant
state. -/
theorem stepLine_noQT {opt ss st line} (hInv : Inv st) :
    stepLine opt ss st line ≠ .error .noQueryTime := by
  simp only [stepLine]
  by_cases hmeta : metaLine line = true
  · rw [if_pos hmeta]; simp
  · rw [if_neg hmeta]
    by_cases hih : (advanceOffsets st line).inHeader = true
    · rw [if_pos hih]
      exact parseHeader_noQT (hInv.1 hih)
    · rw [if_neg hih]
      by_cases hiq : (advanceOffsets st line).inQuery = true
      · rw [if_pos hiq]
        exact parseQuery_noQT (hInv.2.1 hiq)
      · rw [if_neg hiq]
        by_cases hm : headerMatch line = true
        · rw [if_pos hm]
          simp only [parseHeader, if_pos hm]
          exact parseHeaderMain_noQT
        · rw [if_neg hm]; simp

/-- One loop iteration preserves the state-machine invariant. -/
theorem stepLine_inv {opt ss st line st' evs} (hInv : Inv st)
    (h : stepLine opt ss st line = .ok (st', evs)) : Inv st' := by
  simp only [stepLine] at h
  by_cases hmeta : metaLine line = true
  · rw [if_pos hmeta] at h
    obtain ⟨h1, h2⟩ := okInj h
    subst h1; subst h2
    exact hInv
  · rw [if_neg hmeta] at h
    by_cases hih : (advanceOffsets st line).inHeader = true
    · rw [if_pos hih] at h
      exact @parseHeader_inv opt ss (advanceOffsets st line) line st' evs
        (hInv.1 hih) h
    · rw [if_neg hih] at h
      by_cases hiq : (advanceOffsets st line).inQuery = true
      · rw [if_pos hiq] at h
        exact @parseQuery_inv opt ss (advanceOffsets st line) line st' evs
          (hInv.2.1 hiq) h
      · rw [if_neg hiq] at h
        by_cases hm : headerMatch line = true
        · rw [if_pos hm] at h
          simp only [parseHeader, if_pos hm] at h
          have hc := (parseHeaderMain_char hm h).2.1
          have hpos : 0 < st'.headerLines := by rw [hc]; exact Nat.succ_pos _
          exact ⟨fun _ => hpos, fun _ => hpos, fun _ => hpos⟩
        · rw [if_neg hm] at h
          obtain ⟨h1, h2⟩ := okInj h
          subst h1; subst h2
          exact hInv

/-- Whatever the scanner loop delivers carries `Query_time`. -/
theorem runLines_evsQT {opt cs ss} :
    ∀ (lines : List (List Char)) (st : PState) (k : Nat) {st' evs},
      runLines opt cs ss st k lines = .ok (st', evs) → ∀ e ∈ evs, qtPresent e := by
  intro lines
  induction lines with
  | nil =>
    intro st k st' evs h e he
    simp only [runLines] at h
    by_cases hstop : st.stopped = true
    · rw [if_pos hstop] at h
      obtain ⟨h1, h2⟩ := okInj h; subst h1; subst h2; cases he
    · rw [if_neg hstop] at h
      by_cases hcs : cs k = true
      · rw [if_pos hcs] at h
        obtain ⟨h1, h2⟩ := okInj h; subst h1; subst h2; cases he
      · rw [if_neg hcs] at h
        obtain ⟨h1, h2⟩ := okInj h; subst h1; subst h2; cases he
  | cons line rest ih =>
    intro st k st' evs h e he
    simp only [runLines] at h
    by_cases hstop : st.stopped = true
    · rw [if_pos hstop] at h
      obtain ⟨h1, h2⟩ := okInj h; subst h1; subst h2; cases he
    · rw [if_neg hstop] at h
      by_cases hcs : cs k = true
      · rw [if_pos hcs] at h
        obtain ⟨h1, h2⟩ := okInj h; subst h1; subst h2; cases he
      · rw [if_neg hcs] at h
        cases hst : stepLine opt ss st line with
        | error e2 => simp only [hst] at h; exact absurd h errNeOk
        | ok p =>
          obtain ⟨st1, evs1⟩ := p
          simp only [hst] at h
          cases hr : runLines opt cs ss st1 (k + 1) rest with
          | error e2 => simp only [hr] at h; exact absurd h errNeOk
          | ok p2 =>
            obtain ⟨st2, evs2⟩ := p2
            simp only [hr] at h
            obtain ⟨h1, h2⟩ := okInj h; subst h1; subst h2
            rcases List.mem_append.mp he with h' | h'
            · exact stepLine_evsQT hst e h'
            · exact ih st1 (k + 1) hr e h'

/-- The scanner loop never raises the finalizer panic from an invariant
state, and ends in an invariant state. -/
theorem runLines_invQT {opt cs ss} :
    ∀ (lines : List (List Char)) (st : PState) (k : Nat), Inv st →
      (runLines opt cs ss st k lines ≠ .error .noQueryTime) ∧
      (∀ {st' evs}, runLines opt cs ss st k lines = .ok (st', evs) → Inv st') := by
  intro lines
  induction lines with
  | nil =>
    intro st k hInv
    constructor
    · simp only [runLines]
      by_cases hstop : st.stopped = true
      · rw [if_pos hstop]; simp
      · rw [if_neg hstop]
        by_cases hcs : cs k = true
        · rw [if_pos hcs]; simp
        · rw [if_neg hcs]; simp
    · intro st' evs h
      simp only [runLines] at h
      by_cases hstop : st.stopped = true
      · rw [if_pos hstop] at h
        obtain ⟨h1, h2⟩ := okInj h; subst h1; subst h2; exact hInv
      · rw [if_neg hstop] at h
        by_cases hcs : cs k = true
        · rw [if_pos hcs] at h
          obtain ⟨h1, h2⟩ := okInj h; subst h1; subst h2; exact hInv
        · rw [if_neg hcs] at h
          obtain ⟨h1, h2⟩ := okInj h; subst h1; subst h2; exact hInv
  | cons line rest ih =>
    intro st k hInv
    constructor
    · simp only [runLines]
      by_cases hstop : st.stopped = true
      · rw [if_pos hstop]; simp
      · rw [if_neg hstop]
        by_cases hcs : cs k = true
        · rw [if_pos hcs]; simp
        · rw [if_neg hcs]
          cases hst : stepLine opt ss st line with
          | error e2 =>
            simp only [hst]
            intro hc
            injection hc with hc2
            exact stepLine_noQT hInv (hc2 ▸ hst)
          | ok p =>
            obtain ⟨st1, evs1⟩ := p
            simp only [hst]
            cases hr : runLines opt cs ss st1 (k + 1) rest with
            | error e2 =>
              simp only [hr]
              intro hc
              injection hc with hc2
              exact (ih st1 (k + 1) (stepLine_inv hInv hst)).1 (hc2 ▸ hr)
            | ok p2 =>
              obtain ⟨st2, evs2⟩ := p2
              simp only [hr]
              simp
    · intro st' evs h
      simp only [runLines] at h
      by_cases hstop : st.stopped = true
      · rw [if_pos hstop] at h
        obtain ⟨h1, h2⟩ := okInj h; subst h1; subst h2; exact hInv
      · rw [if_neg hstop] at h
        by_cases hcs : cs k = true
        · rw [if_pos hcs] at h
          obtain ⟨h1, h2⟩ := okInj h; subst h1; subst h2; exact hInv
        · rw [if_neg hcs] at h
          cases hst : stepLine opt ss st line with
          | error e2 => simp only [hst] at h; exact absurd h errNeOk
          | ok p =>
            obtain ⟨st1, evs1⟩ := p
            simp only [hst] at h
            cases hr : runLines opt cs ss st1 (k + 1) rest with
            | error e2 => simp only [hr] at h; exact absurd h errNeOk
            | ok p2 =>
              obtain ⟨st2, evs2⟩ := p2
              simp only [hr] at h
              obtain ⟨h1, h2⟩ := okInj h; subst h1; subst h2
              exact (ih st1 (k + 1) (stepLine_inv hInv hst)).2 hr

/-- The initial parser state satisfies the state-machine invariant. -/
theorem initState_inv (opt : Options) : Inv (initState opt) :=
  ⟨fun h => absurd h (by simp [initState]), fun h => absurd h (by simp [initState]),
   fun h => absurd h (by simp [initState])⟩

/-- Whatever a whole run delivers carries `Query_time`. -/
theorem start_evsQT {opt cs ss lines st' evs}
    (h : start opt cs ss lines = .ok (st', evs)) : ∀ e ∈ evs, qtPresent e := by
  unfold start at h
  cases hr : runLines opt cs ss (initState opt) 0 lines with
  | error e2 => simp only [hr] at h; exact absurd h errNeOk
  | ok p =>
    obtain ⟨st1, evs1⟩ := p
    simp only [hr] at h
    by_cases hfl : st1.stopped = false ∧ 0 < st1.queryLines
    · rw [if_pos hfl] at h
      cases hse : sendEvent ss false false st1 with
      | error e2 => simp only [hse] at h; exact absurd h errNeOk
      | ok p2 =>
        obtain ⟨st2, evs2⟩ := p2
        simp only [hse] at h
        obtain ⟨h1, h2⟩ := okInj h; subst h1; subst h2
        intro e he
        rcases List.mem_append.mp he with h' | h'
        · exact runLines_evsQT lines (initState opt) 0 hr e h'
        · exact ((sendEvent_char hse).2.2.2.2.2.2.2 e h').1
    · rw [if_neg hfl] at h
      obtain ⟨h1, h2⟩ := okInj h; subst h1; subst h2
      exact runLines_evsQT lines (initState opt) 0 hr

/-- A whole run never raises the finalizer panic. -/
theorem start_noQT (opt : Options) (cs ss : Nat → Bool) (lines : List (List Char)) :
    start opt cs ss lines ≠ .error .noQueryTime := by
  unfold start
  cases hr : runLines opt cs ss (initState opt) 0 lines with
  | error e2 =>
    simp only
    intro hc
    injection hc with hc2
    exact (runLines_invQT lines (initState opt) 0 (initState_inv opt)).1 (hc2 ▸ hr)
  | ok p =>
    obtain ⟨st1, evs1⟩ := p
    simp only
    by_cases hfl : st1.stopped = false ∧ 0 < st1.queryLines
    · rw [if_pos hfl]
      have hInv1 := (runLines_invQT lines (initState opt) 0 (initState_inv opt)).2 hr
      cases hse : sendEvent ss false false st1 with
      | error e2 =>
        simp only
        intro hc
        injection hc with hc2
        exact sendEvent_noQT (hInv1.2.2 hfl.2) (hc2 ▸ hse)
      | ok p2 =>
        obtain ⟨st2, evs2⟩ := p2
        simp
    · rw [if_neg hfl]
      simp

/-- Cutting the input at an iteration whose stop check observes the signal:
the run never looks at the lines past that iteration. -/
theorem runLines_congr_stop {opt cs ss} :
    ∀ (l1 : List (List Char)) (st : PState) (k : Nat) (l2 : List (List Char)),
      cs (k + l1.length) = true →
      runLines opt cs ss st k (l1 ++ l2) = runLines opt cs ss st k l1 := by
  intro l1
  induction l1 with
  | nil =>
    intro st k l2 hcs
    simp only [List.length_nil, Nat.add_zero] at hcs
    simp only [List.nil_append]
    cases l2 with
    | nil => rfl
    | cons line rest =>
      by_cases hstop : st.stopped = true
      · simp only [runLines, if_pos hstop]
      · simp only [runLines, if_neg hstop, if_pos hcs]
  | cons line rest ih =>
    intro st k l2 hcs
    simp only [List.cons_append]
    by_cases hstop : st.stopped = true
    · simp only [runLines, if_pos hstop]
    · by_cases hk : cs k = true
      · simp only [runLines, if_neg hstop, if_pos hk]
      · simp only [runLines, if_neg hstop, if_neg hk]
        cases hst : stepLine opt ss st line with
        | error e2 => simp only [hst]
        | ok p =>
          obtain ⟨st1, evs1⟩ := p
          simp only [hst]
          have hcs' : cs ((k + 1) + rest.length) = true := by
            have harr : (k + 1) + rest.length = k + (line :: rest).length := by
              simp only [List.length_cons]
              omega
            rw [harr]
            exact hcs
          rw [ih st1 (k + 1) l2 hcs']

/-! ## Offset bookkeeping: invariants for the monotonicity of emitted offsets -/

/-- Total byte count of a list of lines, one newline byte per line. -/
def totalBytes (lines : List (List Char)) : Nat :=
  (lines.map (fun l => l.length + 1)).sum

/-- Lower bound for every event offset the parser can still emit: the
current event's recorded offset while header lines exist, the current line
offset otherwise. -/
def lowB (st : PState) : Nat :=
  if 0 < st.headerLines then st.event.offset else st.lineOffset

/-- Offset invariant: the line offset never exceeds the byte counter, a
recorded event offset never exceeds the current line offset, and an event
carrying `Query_time` has recorded header lines. -/
def OffInv (st : PState) : Prop :=
  st.lineOffset ≤ st.bytesRead ∧
  (0 < st.headerLines → st.event.offset ≤ st.lineOffset) ∧
  ((lookupA st.event.timeMetrics qtKey).isSome = true → 0 < st.headerLines)

theorem totalBytes_cons (line : List Char) (rest : List (List Char)) :
    totalBytes (line :: rest) = (line.length + 1) + totalBytes rest := by
  simp [totalBytes]

theorem sendEvent_off {ss : Nat → Bool} {iH iQ : Bool} {st st' : PState}
    {evs : List Event} (hOff : OffInv st)
    (h : sendEvent ss iH iQ st = .ok (st', evs)) :
    st'.bytesRead = st.bytesRead ∧ OffInv st' ∧ lowB st ≤ lowB st' ∧
    (∀ e ∈ evs, lowB st ≤ e.offset ∧ e.offset ≤ lowB st') ∧
    List.Sorted (· ≤ ·) (evs.map Event.offset) := by
  obtain ⟨c1, c2, c3, c4, c5, c6, c7, c8⟩ := sendEvent_char h
  have hlowB' : lowB st' = st.lineOffset := by
    rw [lowB, if_neg (by rw [c1]; simp), c7]
  have hlow : lowB st ≤ st.lineOffset := by
    rw [lowB]
    by_cases hhl : 0 < st.headerLines
    · rw [if_pos hhl]
      exact hOff.2.1 hhl
    · rw [if_neg hhl]
  refine ⟨c6, ⟨by rw [c6, c7]; exact hOff.1, ?_, ?_⟩, by rw [hlowB']; exact hlow,
    ?_, ?_⟩
  · rw [c1]
    intro hx
    exact absurd hx (by simp)
  · rw [c5]
    intro hx
    exact absurd hx (by simp [newEvent, lookupA])
  · intro e he
    obtain ⟨hq, heq⟩ := c8 e he
    have hq' : (lookupA st.event.timeMetrics qtKey).isSome = true := by
      rw [heq] at hq
      exact hq
    have hhl : 0 < st.headerLines := hOff.2.2 hq'
    have hoffe : e.offset = st.event.offset := by rw [heq]; rfl
    constructor
    · rw [lowB, if_pos hhl, hoffe]
    · rw [hlowB', hoffe]
      exact hOff.2.1 hhl
  · show List.Pairwise _ _
    apply List.pairwise_of_forall_mem_list
    intro a ha b hb
    obtain ⟨e1, he1, heq1⟩ := List.mem_map.mp ha
    obtain ⟨e2, he2, heq2⟩ := List.mem_map.mp hb
    have h1 : e1 = cleaned st.event := (c8 e1 he1).2
    have h2 : e2 = cleaned st.event := (c8 e2 he2).2
    rw [← heq1, ← heq2, h1, h2]

theorem parseAdmin_off {opt : Options} {ss : Nat → Bool} {st st' : PState}
    {line : List Char} {evs : List Event} (hOff : OffInv st)
    (h : parseAdmin opt ss st line = .ok (st', evs)) :
    st'.bytesRead = st.bytesRead ∧ OffInv st' ∧ lowB st ≤ lowB st' ∧
    (∀ e ∈ evs, lowB st ≤ e.offset ∧ e.offset ≤ lowB st') ∧
    List.Sorted (· ≤ ·) (evs.map Event.offset) := by
  unfold parseAdmin at h
  cases ham : adminMatch line with
  | none => rw [ham] at h; exact absurd h errNeOk
  | some cmd =>
    rw [ham] at h
    simp only at h
    split at h
    · obtain ⟨h1, h2⟩ := okInj h
      subst h1; subst h2
      exact ⟨rfl, hOff, le_refl _, (by intro e he; cases he), List.sorted_nil⟩
    · exact @sendEvent_off ss false false { st with event := { st.event with admin := true, query := trimSuffixL cmd ((";").toList) } } st' evs hOff h

theorem parseHeaderMain_off {opt : Options} {ss : Nat → Bool} {st st' : PState}
    {line : List Char} {evs : List Event} (hm : headerMatch line = true)
    (hOff : OffInv st) (h : parseHeaderMain opt ss st line = .ok (st', evs)) :
    st'.bytesRead = st.bytesRead ∧ OffInv st' ∧ lowB st ≤ lowB st' ∧
    (∀ e ∈ evs, lowB st ≤ e.offset ∧ e.offset ≤ lowB st') ∧
    List.Sorted (· ≤ ·) (evs.map Event.offset) := by
  obtain ⟨hevs, hhl, hql, hih, hiq, hbr, hlo, hoff⟩ := parseHeaderMain_char hm h
  have hpos' : 0 < st'.headerLines := by rw [hhl]; exact Nat.succ_pos _
  refine ⟨hbr, ⟨by rw [hlo, hbr]; exact hOff.1, ?_, fun _ => hpos'⟩, ?_, ?_, ?_⟩
  · intro _
    rw [hoff, hlo]
    by_cases h0 : st.headerLines = 0
    · rw [if_pos h0]
    · rw [if_neg h0]
      exact hOff.2.1 (Nat.pos_of_ne_zero h0)
  · rw [lowB, lowB, if_pos hpos', hoff]
    by_cases h0 : st.headerLines = 0
    · rw [if_pos h0, if_neg (by simp [h0])]
    · rw [if_neg h0, if_pos (Nat.pos_of_ne_zero h0)]
  · rw [hevs]
    intro e he
    cases he
  · rw [hevs]
    exact List.sorted_nil

theorem parseQuery_off {opt : Options} {ss : Nat → Bool} {st st' : PState}
    {line : List Char} {evs : List Event} (hOff : OffInv st)
    (h : parseQuery opt ss st line = .ok (st', evs)) :
    st'.bytesRead = st.bytesRead ∧ OffInv st' ∧ lowB st ≤ lowB st' ∧
    (∀ e ∈ evs, lowB st ≤ e.offset ∧ e.offset ≤ lowB st') ∧
    List.Sorted (· ≤ ·) (evs.map Event.offset) := by
  simp only [parseQuery] at h
  by_cases ha : (("# admin").toList).isPrefixOf line = true
  · rw [if_pos ha] at h
    exact parseAdmin_off hOff h
  · rw [if_neg ha] at h
    by_cases hm : headerMatch line = true
    · rw [if_pos hm] at h
      cases hse : sendEvent ss true false st with
      | error e2 => simp only [hse] at h; exact absurd h errNeOk
      | ok p =>
        obtain ⟨st1, evs1⟩ := p
        simp only [hse] at h
        cases hph : parseHeaderMain opt ss st1 line with
        | error e2 => simp only [hph] at h; exact absurd h errNeOk
        | ok p2 =>
          obtain ⟨st2, evs2⟩ := p2
          simp only [hph] at h
          obtain ⟨h1, h2⟩ := okInj h
          subst h1; subst h2
          obtain ⟨rb1, rO1, rl1, re1, rs1⟩ := sendEvent_off hOff hse
          obtain ⟨rb2, rO2, rl2, re2, rs2⟩ := parseHeaderMain_off hm rO1 hph
          have hevs2 : evs2 = [] := (parseHeaderMain_char hm hph).1
          refine ⟨by rw [rb2, rb1], rO2, le_trans rl1 rl2, ?_, ?_⟩
          · intro e he
            rcases List.mem_append.mp he with h' | h'
            · obtain ⟨hb1, hb2⟩ := re1 e h'
              exact ⟨hb1, le_trans hb2 rl2⟩
            · obtain ⟨hb1, hb2⟩ := re2 e h'
              exact ⟨le_trans rl1 hb1, hb2⟩
          · rw [hevs2, List.append_nil]
            exact rs1
    · rw [if_neg hm] at h
      by_cases huse :
          (decide (st.queryLines = 0) && (("use ").toList).isPrefixOf line) = true
      · rw [if_pos huse] at h
        obtain ⟨h1, h2⟩ := okInj h
        subst h1; subst h2
        exact ⟨rfl, hOff, le_refl _, (by intro e he; cases he), List.sorted_nil⟩
      · rw [if_neg huse] at h
        by_cases hset : setMatch line = true
        · rw [if_pos hset] at h
          obtain ⟨h1, h2⟩ := okInj h
          subst h1; subst h2
          exact ⟨rfl, hOff, le_refl _, (by intro e he; cases he), List.sorted_nil⟩
        · rw [if_neg hset] at h
          by_cases hql : 0 < st.queryLines
          · rw [if_pos hql] at h
            obtain ⟨h1, h2⟩ := okInj h
            subst h1; subst h2
            exact ⟨rfl, hOff, le_refl _, (by intro e he; cases he), List.sorted_nil⟩
          · rw [if_neg hql] at h
            obtain ⟨h1, h2⟩ := okInj h
            subst h1; subst h2
            exact ⟨rfl, hOff, le_refl _, (by intro e he; cases he), List.sorted_nil⟩

theorem parseHeader_off {opt : Options} {ss : Nat → Bool} {st st' : PState}
    {line : List Char} {evs : List Event} (hOff : OffInv st)
    (h : parseHeader opt ss st line = .ok (st', evs)) :
    st'.bytesRead = st.bytesRead ∧ OffInv st' ∧ lowB st ≤ lowB st' ∧
    (∀ e ∈ evs, lowB st ≤ e.offset ∧ e.offset ≤ lowB st') ∧
    List.Sorted (· ≤ ·) (evs.map Event.offset) := by
  simp only [parseHeader] at h
  by_cases hm : headerMatch line = true
  · rw [if_pos hm] at h
    exact parseHeaderMain_off hm hOff h
  · rw [if_neg hm] at h
    exact @parseQuery_off opt ss { st with inHeader := false, inQuery := true }
      st' line evs hOff h

/-- The offset arithmetic of one line, without `uint64` wrap-around: the
byte counter grows by the line length plus one, and the line offset is the
prior byte count, incremented by one exactly when that count is nonzero. -/
theorem advanceOffsets_eq {st : PState} {line : List Char}
    (hW : st.bytesRead + (line.length + 1) < W) :
    (advanceOffsets st line).bytesRead = st.bytesRead + (line.length + 1) ∧
    (advanceOffsets st line).lineOffset =
      (if st.bytesRead = 0 then 0 else st.bytesRead + 1) := by
  have hL : (line.length + 1) % W = line.length + 1 :=
    Nat.mod_eq_of_lt (lt_of_le_of_lt (Nat.le_add_left _ _) hW)
  have hb : (st.bytesRead + (line.length + 1)) % W = st.bytesRead + (line.length + 1) :=
    Nat.mod_eq_of_lt hW
  have hlo : (st.bytesRead + (line.length + 1) + W - (line.length + 1)) % W
      = st.bytesRead := by
    have harr : st.bytesRead + (line.length + 1) + W - (line.length + 1)
        = st.bytesRead + W := by omega
    rw [harr, Nat.add_mod_right]
    exact Nat.mod_eq_of_lt (lt_of_le_of_lt (Nat.le_add_right _ _) hW)
  constructor
  · simp only [advanceOffsets, hL]
    exact hb
  · simp only [advanceOffsets, hL, hb, hlo]
    by_cases h0 : st.bytesRead = 0
    · rw [if_pos h0, if_pos h0]
      exact h0
    · rw [if_neg h0, if_neg h0]
      exact Nat.mod_eq_of_lt (by omega)

theorem advanceOffsets_off {st : PState} {line : List Char}
    (hW : st.bytesRead + (line.length + 1) < W) (hOff : OffInv st) :
    OffInv (advanceOffsets st line) ∧ lowB st ≤ lowB (advanceOffsets st line) := by
  obtain ⟨f1, f2, f3, f4, f5, f6⟩ := advanceOffsets_fields st line
  obtain ⟨e1, e2⟩ := advanceOffsets_eq hW
  have h1 := hOff.1
  constructor
  · refine ⟨?_, ?_, ?_⟩
    · rw [e1, e2]
      by_cases h0 : st.bytesRead = 0
      · rw [if_pos h0]
        omega
      · rw [if_neg h0]
        omega
    · intro hp
      rw [f3] at hp
      have h2 := hOff.2.1 hp
      rw [f6, e2]
      by_cases h0 : st.bytesRead = 0
      · rw [if_pos h0]
        omega
      · rw [if_neg h0]
        omega
    · intro hq
      rw [f6] at hq
      rw [f3]
      exact hOff.2.2 hq
  · simp only [lowB, f3, f6, e2]
    by_cases hhl : 0 < st.headerLines
    · rw [if_pos hhl, if_pos hhl]
    · rw [if_neg hhl, if_neg hhl]
      by_cases h0 : st.bytesRead = 0
      · rw [if_pos h0]
        omega
      · rw [if_neg h0]
        omega

theorem stepLine_off {opt : Options} {ss : Nat → Bool} {st st' : PState}
    {line : List Char} {evs : List Event}
    (hW : st.bytesRead + (line.length + 1) < W) (hOff : OffInv st)
    (h : stepLine opt ss st line = .ok (st', evs)) :
    st'.bytesRead = st.bytesRead + (line.length + 1) ∧
    OffInv st' ∧ lowB st ≤ lowB st' ∧
    (∀ e ∈ evs, lowB st ≤ e.offset ∧ e.offset ≤ lowB st') ∧
    List.Sorted (· ≤ ·) (evs.map Event.offset) := by
  obtain ⟨hOffA, hlowA⟩ := advanceOffsets_off hW hOff
  obtain ⟨e1, e2⟩ := advanceOffsets_eq hW
  simp only [stepLine] at h
  by_cases hmeta : metaLine line = true
  · rw [if_pos hmeta] at h
    obtain ⟨h1, h2⟩ := okInj h
    subst h1; subst h2
    exact ⟨e1, hOffA, hlowA, (by intro e he; cases he), List.sorted_nil⟩
  · rw [if_neg hmeta] at h
    by_cases hih : (advanceOffsets st line).inHeader = true
    · rw [if_pos hih] at h
      obtain ⟨rb, rO, rl, re, rs⟩ := parseHeader_off hOffA h
      refine ⟨by rw [rb, e1], rO, le_trans hlowA rl, ?_, rs⟩
      intro e he
      obtain ⟨hb1, hb2⟩ := re e he
      exact ⟨le_trans hlowA hb1, hb2⟩
    · rw [if_neg hih] at h
      by_cases hiq : (advanceOffsets st line).inQuery = true
      · rw [if_pos hiq] at h
        obtain ⟨rb, rO, rl, re, rs⟩ := parseQuery_off hOffA h
        refine ⟨by rw [rb, e1], rO, le_trans hlowA rl, ?_, rs⟩
        intro e he
        obtain ⟨hb1, hb2⟩ := re e he
        exact ⟨le_trans hlowA hb1, hb2⟩
      · rw [if_neg hiq] at h
        by_cases hm : headerMatch line = true
        · rw [if_pos hm] at h
          obtain ⟨rb, rO, rl, re, rs⟩ := @parseHeader_off opt ss
            { advanceOffsets st line with inHeader := true, inQuery := false }
            st' line evs hOffA h
          refine ⟨by rw [rb]; exact e1, rO, le_trans hlowA rl, ?_, rs⟩
          intro e he
          obtain ⟨hb1, hb2⟩ := re e he
          exact ⟨le_trans hlowA hb1, hb2⟩
        · rw [if_neg hm] at h
          obtain ⟨h1, h2⟩ := okInj h
          subst h1; subst h2
          exact ⟨e1, hOffA, hlowA, (by intro e he; cases he), List.sorted_nil⟩

theorem runLines_off {opt : Options} {cs ss : Nat → Bool} :
    ∀ (lines : List (List Char)) (st : PState) (k : Nat) {st' : PState}
      {evs : List Event},
      runLines opt cs ss st k lines = .ok (st', evs) →
      st.bytesRead + totalBytes lines < W → OffInv st →
      OffInv st' ∧ lowB st ≤ lowB st' ∧
      (∀ e ∈ evs, lowB st ≤ e.offset ∧ e.offset ≤ lowB st') ∧
      List.Sorted (· ≤ ·) (evs.map Event.offset) := by
  intro lines
  induction lines with
  | nil =>
    intro st k st' evs h _ hOff
    simp only [runLines] at h
    by_cases hstop : st.stopped = true
    · rw [if_pos hstop] at h
      obtain ⟨h1, h2⟩ := okInj h
      subst h1; subst h2
      exact ⟨hOff, le_refl _, (by intro e he; cases he), List.sorted_nil⟩
    · rw [if_neg hstop] at h
      by_cases hcs : cs k = true
      · rw [if_pos hcs] at h
        obtain ⟨h1, h2⟩ := okInj h
        subst h1; subst h2
        exact ⟨hOff, le_refl _, (by intro e he; cases he), List.sorted_nil⟩
      · rw [if_neg hcs] at h
        obtain ⟨h1, h2⟩ := okInj h
        subst h1; subst h2
        exact ⟨hOff, le_refl _, (by intro e he; cases he), List.sorted_nil⟩
  | cons line rest ih =>
    intro st k st' evs h hW hOff
    simp only [runLines] at h
    by_cases hstop : st.stopped = true
    · rw [if_pos hstop] at h
      obtain ⟨h1, h2⟩ := okInj h
      subst h1; subst h2
      exact ⟨hOff, le_refl _, (by intro e he; cases he), List.sorted_nil⟩
    · rw [if_neg hstop] at h
      by_cases hcs : cs k = true
      · rw [if_pos hcs] at h
        obtain ⟨h1, h2⟩ := okInj h
        subst h1; subst h2
        exact ⟨hOff, le_refl _, (by intro e he; cases he), List.sorted_nil⟩
      · rw [if_neg hcs] at h
        cases hst : stepLine opt ss st line with
        | error e2 => simp only [hst] at h; exact absurd h errNeOk
        | ok p =>
          obtain ⟨st1, evs1⟩ := p
          simp only [hst] at h
          cases hr : runLines opt cs ss st1 (k + 1) rest with
          | error e2 => simp only [hr] at h; exact absurd h errNeOk
          | ok p2 =>
            obtain ⟨st2, evs2⟩ := p2
            simp only [hr] at h
            obtain ⟨h1, h2⟩ := okInj h
            subst h1; subst h2
            rw [totalBytes_cons] at hW
            have hW1 : st.bytesRead + (line.length + 1) < W := by omega
            obtain ⟨sb, sO, sl, se, ss1⟩ := stepLine_off hW1 hOff hst
            have hW2 : st1.bytesRead + totalBytes rest < W := by
              rw [sb]
              omega
            obtain ⟨rO, rl, re, rs⟩ := ih st1 (k + 1) hr hW2 sO
            refine ⟨rO, le_trans sl rl, ?_, ?_⟩
            · intro e he
              rcases List.mem_append.mp he with h' | h'
              · obtain ⟨hb1, hb2⟩ := se e h'
                exact ⟨hb1, le_trans hb2 rl⟩
              · obtain ⟨hb1, hb2⟩ := re e h'
                exact ⟨le_trans sl hb1, hb2⟩
            · rw [List.map_append]
              show List.Pairwise _ _
              rw [List.pairwise_append]
              refine ⟨ss1, rs, ?_⟩
              intro a ha b hb
              obtain ⟨e, he, heq⟩ := List.mem_map.mp ha
              obtain ⟨e2, he2, heq2⟩ := List.mem_map.mp hb
              rw [← heq, ← heq2]
              exact le_trans (se e he).2 (re e2 he2).1

/-! ## Witness inputs -/

/-- Witness configuration: start offset zero, empty admin filter. -/
def wOpt : Options := ⟨0, fun _ => false⟩

/-- Oracle that never observes the stop signal. -/
def wNo : Nat → Bool := fun _ => false

/-- A complete two-line event block. -/
def wLines1 : List (List Char) := [("# Query_time: 1").toList, ("SELECT 1;").toList]

/-- A discard state: one header line recorded, no `Query_time`. -/
def wStD : PState := { initState wOpt with headerLines := 1 }

/-- Assembling a concrete loop run, empty-input case. -/
theorem runLines_nil_ok {opt : Options} {cs ss : Nat → Bool} {st : PState} {k : Nat}
    (hstop : st.stopped = false) (hcs : cs k = false) :
    runLines opt cs ss st k [] = .ok (st, []) := by
  simp only [runLines]
  rw [if_neg (by simp [hstop]), if_neg (by simp [hcs])]

/-- Assembling a concrete loop run, one iteration at a time. -/
theorem runLines_cons_ok {opt : Options} {cs ss : Nat → Bool} {st st1 st2 : PState}
    {k : Nat} {line : List Char} {rest : List (List Char)} {evs2 : List Event}
    (hstop : st.stopped = false) (hcs : cs k = false)
    (hst : stepLine opt ss st line = .ok (st1, []))
    (hr : runLines opt cs ss st1 (k + 1) rest = .ok (st2, evs2)) :
    runLines opt cs ss st k (line :: rest) = .ok (st2, evs2) := by
  simp only [runLines]
  rw [if_neg (by simp [hstop]), if_neg (by simp [hcs])]
  simp only [hst, hr, List.nil_append]

/-- A run whose loop ends mid-accumulation on a valid event flushes it. -/
theorem start_flush_emit {opt : Options} {cs ss : Nat → Bool}
    {lines : List (List Char)} {st : PState} {evs : List Event} {v : Rat}
    (hr : runLines opt cs ss (initState opt) 0 lines = .ok (st, evs))
    (hstop : st.stopped = false) (hq : 0 < st.queryLines)
    (hsome : lookupA st.event.timeMetrics qtKey = some v) (hss : ss st.sends = false) :
    start opt cs ss lines =
      .ok (resetFor false false { st with sends := st.sends + 1 },
        evs ++ [cleaned st.event]) := by
  unfold start
  simp only [hr]
  rw [if_pos ⟨hstop, hq⟩]
  simp only [sendEvent_emit hsome hss]

/-- A run whose loop ends with no accumulated query line flushes nothing. -/
theorem start_noflush {opt : Options} {cs ss : Nat → Bool}
    {lines : List (List Char)} {st : PState} {evs : List Event}
    (hr : runLines opt cs ss (initState opt) 0 lines = .ok (st, evs))
    (h : ¬ (st.stopped = false ∧ 0 < st.queryLines)) :
    start opt cs ss lines = .ok (st, evs) := by
  unfold start
  simp only [hr]
  rw [if_neg h]

/-- The parser state after the first line of `wLines1`. -/
def wStA1 : PState :=
  { inHeader := true, inQuery := false, headerLines := 1, queryLines := 0,
    bytesRead := 16, lineOffset := 0, stopped := false, sends := 0,
    event := { newEvent with timeMetrics := [(qtKey, 1)] } }

/-- The parser state after both lines of `wLines1`. -/
def wStA2 : PState :=
  { inHeader := false, inQuery := true, headerLines := 1, queryLines := 1,
    bytesRead := 26, lineOffset := 17, stopped := false, sends := 0,
    event := { newEvent with
                 query := ("SELECT 1;").toList,
                 timeMetrics := [(qtKey, 1)] } }

/-- The scanner loop on `wLines1`, assembled step by step. -/
theorem wLines1_run :
    runLines wOpt wNo wNo (initState wOpt) 0 wLines1 = .ok (wStA2, []) := by
  have h1 : stepLine wOpt wNo (initState wOpt) (("# Query_time: 1").toList) =
      .ok (wStA1, []) := rfl
  have h2 : stepLine wOpt wNo wStA1 (("SELECT 1;").toList) =
      .ok (wStA2, []) := rfl
  exact runLines_cons_ok rfl rfl h1
    (runLines_cons_ok rfl rfl h2 (runLines_nil_ok rfl rfl))

/-- The whole run on `wLines1`: one cleaned event. -/
theorem wLines1_start :
    start wOpt wNo wNo wLines1 =
      .ok (resetFor false false { wStA2 with sends := wStA2.sends + 1 },
        [cleaned wStA2.event]) := by
  have hsome : lookupA wStA2.event.timeMetrics qtKey = some 1 := by decide
  have h := start_flush_emit wLines1_run rfl (by decide) hsome rfl
  simpa using h

/-- Options that resume at byte offset 5 (nonzero `StartOffset`). -/
def wOpt5 : Options := ⟨5, fun _ => false⟩

/-- The parser state after the first line of `wLines1` at start offset 5. -/
def cexStE1 : PState :=
  { inHeader := true, inQuery := false, headerLines := 1, queryLines := 0,
    bytesRead := 21, lineOffset := 6, stopped := false, sends := 0,
    event := { newEvent with offset := 6, timeMetrics := [(qtKey, 1)] } }

/-- The parser state after both lines of `wLines1` at start offset 5. -/
def cexStE2 : PState :=
  { inHeader := false, inQuery := true, headerLines := 1, queryLines := 1,
    bytesRead := 31, lineOffset := 22, stopped := false, sends := 0,
    event := { newEvent with
                 offset := 6,
                 query := ("SELECT 1;").toList,
                 timeMetrics := [(qtKey, 1)] } }

/-- A whole run without `uint64` wrap-around delivers its events with
non-decreasing offsets. -/
theorem start_off {opt : Options} {cs ss : Nat → Bool} {lines : List (List Char)}
    {st' : PState} {evs : List Event}
    (h : start opt cs ss lines = .ok (st', evs))
    (hW : opt.startOffset + totalBytes lines < W) :
    List.Sorted (· ≤ ·) (evs.map Event.offset) := by
  unfold start at h
  cases hr : runLines opt cs ss (initState opt) 0 lines with
  | error e => simp only [hr] at h; exact absurd h errNeOk
  | ok p =>
    obtain ⟨st1, evs1⟩ := p
    simp only [hr] at h
    have hOff0 : OffInv (initState opt) := by
      refine ⟨Nat.zero_le _, ?_, ?_⟩
      · intro hp
        exact absurd hp (by simp [initState])
      · intro hq
        exact absurd hq (by simp [initState, newEvent, lookupA])
    have hmod : (initState opt).bytesRead ≤ opt.startOffset := Nat.mod_le _ _
    have hb : (initState opt).bytesRead + totalBytes lines < W := by omega
    obtain ⟨rO, rl, re, rs⟩ := runLines_off lines (initState opt) 0 hr hb hOff0
    by_cases hfl : st1.stopped = false ∧ 0 < st1.queryLines
    · rw [if_pos hfl] at h
      cases hse : sendEvent ss false false st1 with
      | error e => simp only [hse] at h; exact absurd h errNeOk
      | ok p2 =>
        obtain ⟨st2, evs2⟩ := p2
        simp only [hse] at h
        obtain ⟨h1, h2⟩ := okInj h
        subst h1; subst h2
        obtain ⟨sb, sO, sl, se, ss2⟩ := sendEvent_off rO hse
        rw [List.map_append]
        show List.Pairwise _ _
        rw [List.pairwise_append]
        refine ⟨rs, ss2, ?_⟩
        intro a ha b hb2
        obtain ⟨e1, he1, heq1⟩ := List.mem_map.mp ha
        obtain ⟨e2, he2, heq2⟩ := List.mem_map.mp hb2
        rw [← heq1, ← heq2]
        exact le_trans (re e1 he1).2 (se e2 he2).1
    · rw [if_neg hfl] at h
      obtain ⟨h1, h2⟩ := okInj h
      subst h1; subst h2
      exact rs

/-! ## Claims -/

/-- C1: For every emitted Event, `time_metrics` contains an entry for the
query-duration key `"Query_time"`; an in-progress event whose
`time_metrics` lacks that key (and for which at least one header line was
recorded) is discarded by the finalizer — state reset, nothing delivered on
the event channel. -/
theorem C1_emitted_events_have_query_time :
    (∀ (opt : Options) (cs ss : Nat → Bool) (lines : List (List Char)),
      ∀ e ∈ emitted (start opt cs ss lines),
        (lookupA e.timeMetrics qtKey).isSome = true) ∧
    (∀ (ss : Nat → Bool) (iH iQ : Bool) (st : PState),
      lookupA st.event.timeMetrics qtKey = none → 0 < st.headerLines →
      sendEvent ss iH iQ st = .ok (resetFor iH iQ st, [])) := by
  constructor
  · intro opt cs ss lines e he
    unfold emitted at he
    cases hr : start opt cs ss lines with
    | error e2 => rw [hr] at he; cases he
    | ok p =>
      obtain ⟨st', evs⟩ := p
      rw [hr] at he
      exact start_evsQT hr e he
  · intro ss iH iQ st hnone hpos
    exact sendEvent_discard hnone (Nat.pos_iff_ne_zero.mp hpos)

theorem C1_emitted_events_have_query_time_witness :
    (lookupA (cleaned wStA2.event).timeMetrics qtKey).isSome = true ∧
    sendEvent wNo false false wStD = .ok (resetFor false false wStD, []) := by
  have hmem : cleaned wStA2.event ∈ emitted (start wOpt wNo wNo wLines1) := by
    rw [wLines1_start]
    exact List.mem_singleton_self _
  exact ⟨C1_emitted_events_have_query_time.1 wOpt wNo wNo wLines1
      (cleaned wStA2.event) hmem,
    C1_emitted_events_have_query_time.2 wNo false false wStD (by decide) (by decide)⟩

/-- C5: On an event lacking the query-duration key the finalizer panics iff
zero header lines were recorded (with at least one it silently discards),
and under the parser's own state machine that panic is unreachable: no run
of `start` ever returns it. -/
theorem C5_finalizer_panic_iff_no_header_lines :
    (∀ (ss : Nat → Bool) (iH iQ : Bool) (st : PState),
      lookupA st.event.timeMetrics qtKey = none →
      ((st.headerLines = 0 → sendEvent ss iH iQ st = .error .noQueryTime) ∧
       (st.headerLines ≠ 0 → sendEvent ss iH iQ st = .ok (resetFor iH iQ st, [])))) ∧
    (∀ (opt : Options) (cs ss : Nat → Bool) (lines : List (List Char)),
      start opt cs ss lines ≠ .error .noQueryTime) := by
  constructor
  · intro ss iH iQ st hnone
    exact ⟨fun h0 => sendEvent_panic hnone h0, fun h0 => sendEvent_discard hnone h0⟩
  · intro opt cs ss lines
    exact start_noQT opt cs ss lines

theorem C5_finalizer_panic_iff_no_header_lines_witness :
    sendEvent wNo false false (initState wOpt) = .error .noQueryTime ∧
    sendEvent wNo false false wStD = .ok (resetFor false false wStD, []) ∧
    start wOpt wNo wNo wLines1 ≠ .error .noQueryTime :=
  ⟨(C5_finalizer_panic_iff_no_header_lines.1 wNo false false (initState wOpt)
      (by decide)).1 (by decide),
   (C5_finalizer_panic_iff_no_header_lines.1 wNo false false wStD (by decide)).2
      (by decide),
   C5_finalizer_panic_iff_no_header_lines.2 wOpt wNo wNo wLines1⟩

/-- C7: When the scanner loop exits at end of input (not by cancellation)
with query lines accumulated, the trailing event is finalized exactly once
after the loop — emitted in cleaned form when valid and accepted, silently
discarded when the duration metric is missing; with no accumulated query
line nothing more happens after the loop. -/
theorem C7_eof_trailing_flush :
    ∀ (opt : Options) (cs ss : Nat → Bool) (lines : List (List Char))
      (st : PState) (evs : List Event),
      runLines opt cs ss (initState opt) 0 lines = .ok (st, evs) →
      st.stopped = false →
      (st.queryLines = 0 → start opt cs ss lines = .ok (st, evs)) ∧
      (0 < st.queryLines →
        (lookupA st.event.timeMetrics qtKey = none →
          start opt cs ss lines = .ok (resetFor false false st, evs)) ∧
        (∀ v, lookupA st.event.timeMetrics qtKey = some v → ss st.sends = false →
          start opt cs ss lines =
            .ok (resetFor false false { st with sends := st.sends + 1 },
              evs ++ [cleaned st.event]))) := by
  intro opt cs ss lines st evs hr hstop
  constructor
  · intro hq0
    unfold start
    simp only [hr]
    rw [if_neg (by simp only [hq0]; simp)]
  · intro hqpos
    have hInv := (runLines_invQT lines (initState opt) 0 (initState_inv opt)).2 hr
    constructor
    · intro hnone
      unfold start
      simp only [hr]
      rw [if_pos ⟨hstop, hqpos⟩]
      simp only [sendEvent_discard hnone (Nat.pos_iff_ne_zero.mp (hInv.2.2 hqpos))]
      simp
    · intro v hsome hss
      unfold start
      simp only [hr]
      rw [if_pos ⟨hstop, hqpos⟩]
      simp only [sendEvent_emit hsome hss]

theorem C7_eof_trailing_flush_witness :
    start wOpt wNo wNo wLines1 =
      .ok (resetFor false false { wStA2 with sends := wStA2.sends + 1 },
        [cleaned wStA2.event]) := by
  have h := ((C7_eof_trailing_flush wOpt wNo wNo wLines1 wStA2 [] wLines1_run
      rfl).2 (by decide)).2 1 (by decide) rfl
  simpa using h

/-- C8: If the cancellation signal is observed — at the per-iteration check
before reading a line, or while blocked handing an event to the output
channel — the parser stops: a run whose stop check fires after `l1` never
reads past `l1`; a loop that ended stopped performs no trailing flush; a
send interrupted by the signal delivers nothing and marks the parser
stopped, even mid-accumulation. -/
theorem C8_cancellation_halts :
    (∀ (opt : Options) (cs ss : Nat → Bool) (l1 l2 : List (List Char)),
      cs l1.length = true → start opt cs ss (l1 ++ l2) = start opt cs ss l1) ∧
    (∀ (opt : Options) (cs ss : Nat → Bool) (lines : List (List Char))
       (st : PState) (evs : List Event),
      runLines opt cs ss (initState opt) 0 lines = .ok (st, evs) →
      st.stopped = true → start opt cs ss lines = .ok (st, evs)) ∧
    (∀ (ss : Nat → Bool) (iH iQ : Bool) (st : PState) (v : Rat),
      lookupA st.event.timeMetrics qtKey = some v → ss st.sends = true →
      sendEvent ss iH iQ st =
        .ok (resetFor iH iQ { st with sends := st.sends + 1, stopped := true }, [])) := by
  refine ⟨?_, ?_, ?_⟩
  · intro opt cs ss l1 l2 hcs
    unfold start
    rw [runLines_congr_stop l1 (initState opt) 0 l2 (by simpa using hcs)]
  · intro opt cs ss lines st evs hr hstop
    unfold start
    simp only [hr]
    rw [if_neg (by simp [hstop])]
  · intro ss iH iQ st v hsome hss
    exact sendEvent_stop hsome hss

/-- Oracle observing the stop signal at the loop check after two lines. -/
def wCs1 : Nat → Bool := fun k => k == 2

/-- Oracle observing the stop signal at the first send attempt. -/
def wSs0 : Nat → Bool := fun _ => true

theorem C8_cancellation_halts_witness :
    start wOpt wCs1 wNo (wLines1 ++ [("# Lock_time: 2").toList]) =
      start wOpt wCs1 wNo wLines1 ∧
    sendEvent wSs0 false false wStA2 =
      .ok (resetFor false false
        { wStA2 with sends := wStA2.sends + 1, stopped := true }, []) := by
  constructor
  · exact C8_cancellation_halts.1 wOpt wCs1 wNo wLines1 [("# Lock_time: 2").toList]
      (by decide)
  · exact C8_cancellation_halts.2.2 wSs0 false false wStA2 1 (by decide) (by decide)

/-- A `"# Time"`-prefixed line matches `headerRe`. -/
theorem timePrefix_header {line : List Char}
    (h : (("# Time").toList).isPrefixOf line = true) : headerMatch line = true := by
  obtain ⟨t, ht⟩ := List.isPrefixOf_iff_prefix.mp h
  have he : ("# Time").toList = ['#', ' ', 'T', 'i', 'm', 'e'] := rfl
  rw [he] at ht
  subst ht
  simp [headerMatch, spacesThenUpper, (by decide : isSpaceGo ' ' = true),
    (by decide : isUpperAZ 'T' = true)]

/-- A `"# User"`-prefixed line matches `headerRe`. -/
theorem userPrefix_header {line : List Char}
    (h : (("# User").toList).isPrefixOf line = true) : headerMatch line = true := by
  obtain ⟨t, ht⟩ := List.isPrefixOf_iff_prefix.mp h
  have he : ("# User").toList = ['#', ' ', 'U', 's', 'e', 'r'] := rfl
  rw [he] at ht
  subst ht
  simp [headerMatch, spacesThenUpper, (by decide : isSpaceGo ' ' = true),
    (by decide : isUpperAZ 'U' = true)]

/-- A `"# User"`-prefixed line is not `"# Time"`-prefixed. -/
theorem userPrefix_not_time {line : List Char}
    (h : (("# User").toList).isPrefixOf line = true) :
    (("# Time").toList).isPrefixOf line = false := by
  obtain ⟨t, ht⟩ := List.isPrefixOf_iff_prefix.mp h
  have he : ("# User").toList = ['#', ' ', 'U', 's', 'e', 'r'] := rfl
  rw [he] at ht
  subst ht
  simp [List.isPrefixOf, (by decide : ('T' == 'U') = false)]

/-- C10: In header state, a `"# Time"` line with no substring matching the
timestamp pattern, or a `"# User"` line not matching the user-host pattern,
makes the header parser index a `nil` submatch slice: a runtime panic, not a
skip. -/
theorem C10_malformed_header_line_panics :
    (∀ (opt : Options) (ss : Nat → Bool) (st : PState) (line : List Char),
      (("# Time").toList).isPrefixOf line = true → timeMatch line = none →
      parseHeader opt ss st line = .error .timeNoMatch) ∧
    (∀ (opt : Options) (ss : Nat → Bool) (st : PState) (line : List Char),
      (("# User").toList).isPrefixOf line = true → userMatch line = none →
      parseHeader opt ss st line = .error .userNoMatch) := by
  constructor
  · intro opt ss st line hp htm
    rw [parseHeader, if_pos (timePrefix_header hp)]
    rw [parseHeaderMain, if_pos hp]
    rw [htm]
  · intro opt ss st line hp hum
    rw [parseHeader, if_pos (userPrefix_header hp)]
    rw [parseHeaderMain, if_neg (by simp only [userPrefix_not_time hp]; simp),
      if_pos hp]
    rw [hum]

theorem C10_malformed_header_line_panics_witness :
    parseHeader wOpt wNo (initState wOpt) (("# Time:").toList) =
      .error .timeNoMatch ∧
    parseHeader wOpt wNo (initState wOpt) (("# User").toList) =
      .error .userNoMatch :=
  ⟨C10_malformed_header_line_panics.1 wOpt wNo (initState wOpt)
      (("# Time:").toList) (by decide) (by decide),
   C10_malformed_header_line_panics.2 wOpt wNo (initState wOpt)
      (("# User").toList) (by decide) (by decide)⟩

/-- C4: Classification of every `name: value` metric pair, in the order the
code checks the rules, and the zero default for unparseable numeric
tokens. -/
theorem C4_metric_classification :
    (∀ (ev : Event) (name value : List Char),
      (((("_time").toList).isSuffixOf name || (("_wait").toList).isSuffixOf name)
          = true →
        applyMetric ev (name, value) =
          { ev with timeMetrics := updAssoc ev.timeMetrics name (parseFloatGo value) }) ∧
      (((("_time").toList).isSuffixOf name || (("_wait").toList).isSuffixOf name)
          = false → value = ("Yes").toList →
        applyMetric ev (name, value) =
          { ev with boolMetrics := updAssoc ev.boolMetrics name true }) ∧
      (((("_time").toList).isSuffixOf name || (("_wait").toList).isSuffixOf name)
          = false → value = ("No").toList →
        applyMetric ev (name, value) =
          { ev with boolMetrics := updAssoc ev.boolMetrics name false }) ∧
      (((("_time").toList).isSuffixOf name || (("_wait").toList).isSuffixOf name)
          = false → value ≠ ("Yes").toList → value ≠ ("No").toList →
        name = ("Schema").toList →
        applyMetric ev (name, value) = { ev with db := value }) ∧
      (((("_time").toList).isSuffixOf name || (("_wait").toList).isSuffixOf name)
          = false → value ≠ ("Yes").toList → value ≠ ("No").toList →
        name = ("Log_slow_rate_type").toList →
        applyMetric ev (name, value) = { ev with rateType := value }) ∧
      (((("_time").toList).isSuffixOf name || (("_wait").toList).isSuffixOf name)
          = false → value ≠ ("Yes").toList → value ≠ ("No").toList →
        name = ("Log_slow_rate_limit").toList →
        applyMetric ev (name, value) =
          { ev with rateLimit := parseUintGo value % 256 }) ∧
      (((("_time").toList).isSuffixOf name || (("_wait").toList).isSuffixOf name)
          = false → value ≠ ("Yes").toList → value ≠ ("No").toList →
        name ≠ ("Schema").toList → name ≠ ("Log_slow_rate_type").toList →
        name ≠ ("Log_slow_rate_limit").toList →
        applyMetric ev (name, value) =
          { ev with numberMetrics := updAssoc ev.numberMetrics name (parseUintGo value) })) ∧
    (∀ l : List Char, parseFloatCore (parseSign l).2 = none → parseFloatGo l = 0) ∧
    (∀ l : List Char, (l.isEmpty || l.any (fun c => !c.isDigit)) = true →
      parseUintGo l = 0) ∧
    lookupA ((metricsFindAll (("# Query_time: abc").toList)).foldl applyMetric
      newEvent).timeMetrics qtKey = some 0 := by
  refine ⟨?_, ?_, ?_, by decide⟩
  · intro ev name value
    have hsuf : ∀ b : Bool, b = false → ¬ (b = true) := by
      intro b hb hc
      rw [hb] at hc
      exact Bool.false_ne_true hc
    have hyn : value ≠ ("Yes").toList → value ≠ ("No").toList →
        ¬ ((decide (value = ("Yes").toList) ||
            decide (value = ("No").toList)) = true) := by
      intro hy hn hc
      rcases (Bool.or_eq_true _ _).mp hc with h | h
      · exact hy (of_decide_eq_true h)
      · exact hn (of_decide_eq_true h)
    refine ⟨?_, ?_, ?_, ?_, ?_, ?_, ?_⟩
    · intro hs
      rw [applyMetric, if_pos hs]
    · intro hs hy
      rw [applyMetric, if_neg (hsuf _ hs),
        if_pos ((Bool.or_eq_true _ _).mpr (Or.inl (decide_eq_true hy))),
        if_pos hy]
    · intro hs hn
      rw [applyMetric, if_neg (hsuf _ hs),
        if_pos ((Bool.or_eq_true _ _).mpr (Or.inr (decide_eq_true hn))),
        if_neg (fun hc => absurd (hn.symm.trans hc) (by decide))]
    · intro hs hy hn hsch
      rw [applyMetric, if_neg (hsuf _ hs), if_neg (hyn hy hn), if_pos hsch]
    · intro hs hy hn hrt
      have hns : name ≠ ("Schema").toList := by rw [hrt]; decide
      rw [applyMetric, if_neg (hsuf _ hs), if_neg (hyn hy hn),
        if_neg hns, if_pos hrt]
    · intro hs hy hn hrl
      have hns : name ≠ ("Schema").toList := by rw [hrl]; decide
      have hnt : name ≠ ("Log_slow_rate_type").toList := by rw [hrl]; decide
      rw [applyMetric, if_neg (hsuf _ hs), if_neg (hyn hy hn),
        if_neg hns, if_neg hnt, if_pos hrl]
    · intro hs hy hn hns hnt hnl
      rw [applyMetric, if_neg (hsuf _ hs), if_neg (hyn hy hn),
        if_neg hns, if_neg hnt, if_neg hnl]
  · intro l hnone
    rw [parseFloatGo]
    cases hps : parseSign l with
    | mk neg r =>
      rw [hps] at hnone
      simp only at hnone
      simp only [hnone]
  · intro l hbad
    rw [parseUintGo, if_pos hbad]

theorem C4_metric_classification_witness :
    applyMetric newEvent ((("Query_time").toList), (("abc").toList)) =
      { newEvent with
        timeMetrics := updAssoc newEvent.timeMetrics (("Query_time").toList)
          (parseFloatGo (("abc").toList)) } ∧
    parseFloatGo (("abc").toList) = 0 ∧
    parseUintGo (("xyz").toList) = 0 :=
  ⟨(C4_metric_classification.1 newEvent (("Query_time").toList)
      (("abc").toList)).1 (by decide),
   C4_metric_classification.2.1 (("abc").toList) (by decide),
   C4_metric_classification.2.2.1 (("xyz").toList) (by decide)⟩

/-- Input refuting C3 as stated: a header block without the duration metric
followed by an unfiltered admin command. -/
def cexAdminLines : List (List Char) :=
  [("# Schema: test").toList, ("# administrator command: Ping;").toList]

/-- The parser state after the first line of `cexAdminLines`. -/
def cexStB1 : PState :=
  { inHeader := true, inQuery := false, headerLines := 1, queryLines := 0,
    bytesRead := 15, lineOffset := 0, stopped := false, sends := 0,
    event := { newEvent with db := ("test").toList } }

/-- The parser state after both lines of `cexAdminLines`: the admin command
went to the finalizer, which discarded the event and reset the state. -/
def cexStB2 : PState :=
  { inHeader := false, inQuery := false, headerLines := 0, queryLines := 0,
    bytesRead := 46, lineOffset := 16, stopped := false, sends := 0,
    event := newEvent }

/-- C3 as stated is false: the admin command `Ping` is extracted, is not in
the (empty) filter set, yet the run emits no event for the block — the
in-progress event lacks `Query_time`, so the finalizer discards it instead
of emitting. -/
theorem C3_counterexample :
    adminMatch (("# administrator command: Ping;").toList) = some (("Ping;").toList) ∧
    wOpt.filterAdminCommand (("Ping").toList) = false ∧
    emitted (start wOpt wNo wNo cexAdminLines) = [] := by
  refine ⟨by decide, rfl, ?_⟩
  have h1 : stepLine wOpt wNo (initState wOpt) (("# Schema: test").toList) =
      .ok (cexStB1, []) := rfl
  have h2 : stepLine wOpt wNo cexStB1 (("# administrator command: Ping;").toList) =
      .ok (cexStB2, []) := rfl
  have hr : runLines wOpt wNo wNo (initState wOpt) 0 cexAdminLines =
      .ok (cexStB2, []) :=
    runLines_cons_ok rfl rfl h1
      (runLines_cons_ok rfl rfl h2 (runLines_nil_ok rfl rfl))
  rw [start_noflush hr (by decide)]
  rfl

/-- C3 (amended): for an admin-command line with extracted command `cmd` and
`q` the command stripped of one trailing `';'`: if `q` is filtered, no event
is emitted and the parser is reset to the neither-header-nor-query state;
if `q` is not filtered the event is finalized immediately — emitted with
`admin = true` and `query = q` (stripped of one further trailing `';'` by
the finalizer) when its `time_metrics` has the duration key and the channel
accepts, and silently discarded when the duration key is missing. -/
theorem C3_admin_command_amended :
    ∀ (opt : Options) (ss : Nat → Bool) (st : PState) (line cmd : List Char),
      adminMatch line = some cmd →
      ∀ q, q = trimSuffixL cmd ((";").toList) →
      (opt.filterAdminCommand q = true →
        parseAdmin opt ss st line =
          .ok ({ st with
                   inHeader := false,
                   inQuery := false,
                   event := { st.event with admin := true, query := q } },
            [])) ∧
      (opt.filterAdminCommand q = false →
        (∀ v, lookupA st.event.timeMetrics qtKey = some v → ss st.sends = false →
          parseAdmin opt ss st line =
            .ok (resetFor false false
              { st with
                  sends := st.sends + 1,
                  event := { st.event with admin := true, query := q } },
              [cleaned { st.event with admin := true, query := q }]) ∧
          (cleaned { st.event with admin := true, query := q }).admin = true ∧
          (cleaned { st.event with admin := true, query := q }).query =
            trimSuffixL q ((";").toList)) ∧
        (lookupA st.event.timeMetrics qtKey = none → 0 < st.headerLines →
          parseAdmin opt ss st line =
            .ok (resetFor false false
              { st with event := { st.event with admin := true, query := q } },
              []))) := by
  intro opt ss st line cmd ham q hq
  subst hq
  constructor
  · intro hf
    rw [parseAdmin, ham]
    simp only
    rw [if_pos hf]
  · intro hf
    constructor
    · intro v hsome hss
      rw [parseAdmin, ham]
      simp only
      rw [if_neg (by simpa using hf)]
      rw [@sendEvent_emit ss false false
        { st with event := { st.event with
                               admin := true,
                               query := trimSuffixL cmd ((";").toList) } }
        v hsome hss]
      exact ⟨rfl, rfl, rfl⟩
    · intro hnone hpos
      rw [parseAdmin, ham]
      simp only
      rw [if_neg (by simpa using hf)]
      rw [@sendEvent_discard ss false false
        { st with event := { st.event with
                               admin := true,
                               query := trimSuffixL cmd ((";").toList) } }
        hnone (Nat.pos_iff_ne_zero.mp hpos)]

/-- Options whose admin filter set contains exactly `Ping`. -/
def wOptF : Options := ⟨0, fun c => c == ("Ping").toList⟩

theorem C3_admin_command_amended_witness :
    parseAdmin wOptF wNo (initState wOptF) (("# administrator command: Ping;").toList) =
      .ok ({ initState wOptF with
               inHeader := false,
               inQuery := false,
               event := { (initState wOptF).event with
                            admin := true,
                            query := ("Ping").toList } }, []) ∧
    parseAdmin wOpt wNo wStA2 (("# administrator command: Quit;").toList) =
      .ok (resetFor false false
        { wStA2 with
            sends := wStA2.sends + 1,
            event := { wStA2.event with admin := true, query := ("Quit").toList } },
        [cleaned { wStA2.event with admin := true, query := ("Quit").toList }]) :=
  ⟨(C3_admin_command_amended wOptF wNo (initState wOptF) _ (("Ping;").toList)
      (by decide) (("Ping").toList) (by decide)).1 (by decide),
   (((C3_admin_command_amended wOpt wNo wStA2 _ (("Quit;").toList) (by decide)
      (("Quit").toList) (by decide)).2 rfl).1 1 (by decide) rfl).1⟩

/-- Input refuting C6 as stated: after one accumulated query line, a
`"use "` line that happens to match the session-variable pattern. -/
def cexUseLines : List (List Char) :=
  [("# Query_time: 1").toList, ("SELECT 1").toList,
   ("use x SET timestamp").toList]

/-- The parser state after the first two lines of `cexUseLines`. -/
def cexStC2 : PState :=
  { inHeader := false, inQuery := true, headerLines := 1, queryLines := 1,
    bytesRead := 25, lineOffset := 17, stopped := false, sends := 0,
    event := { newEvent with
                 query := ("SELECT 1").toList,
                 timeMetrics := [(qtKey, 1)] } }

/-- The parser state after all three lines of `cexUseLines`: the `use … SET
timestamp` line only advanced the offsets. -/
def cexStC3 : PState :=
  { inHeader := false, inQuery := true, headerLines := 1, queryLines := 1,
    bytesRead := 45, lineOffset := 26, stopped := false, sends := 0,
    event := { newEvent with
                 query := ("SELECT 1").toList,
                 timeMetrics := [(qtKey, 1)] } }

/-- C6 as stated is false: with a query line already accumulated, a `"use "`
line matching the `SET …` session-variable pattern is dropped rather than
appended as ordinary query text. -/
theorem C6_counterexample :
    setMatch (("use x SET timestamp").toList) = true ∧
    (emitted (start wOpt wNo wNo cexUseLines)).map Event.query =
      [("SELECT 1").toList] ∧
    (emitted (start wOpt wNo wNo cexUseLines)).map Event.query ≠
      [("SELECT 1\nuse x SET timestamp").toList] := by
  have h1 : stepLine wOpt wNo (initState wOpt) (("# Query_time: 1").toList) =
      .ok (wStA1, []) := rfl
  have h2 : stepLine wOpt wNo wStA1 (("SELECT 1").toList) =
      .ok (cexStC2, []) := rfl
  have h3 : stepLine wOpt wNo cexStC2 (("use x SET timestamp").toList) =
      .ok (cexStC3, []) := rfl
  have hr : runLines wOpt wNo wNo (initState wOpt) 0 cexUseLines =
      .ok (cexStC3, []) :=
    runLines_cons_ok rfl rfl h1
      (runLines_cons_ok rfl rfl h2
        (runLines_cons_ok rfl rfl h3 (runLines_nil_ok rfl rfl)))
  have hsome : lookupA cexStC3.event.timeMetrics qtKey = some 1 := by decide
  have hs := start_flush_emit hr rfl (by decide) hsome rfl
  have hmap : (emitted (start wOpt wNo wNo cexUseLines)).map Event.query =
      [("SELECT 1").toList] := by
    rw [hs]
    decide
  exact ⟨by decide, hmap, by rw [hmap]; decide⟩

/-- C6 (amended): a body line starting `"use "` is treated as a
schema-switch directive exactly when no query line has been accumulated —
`db` is set to the remainder with every trailing `';'` removed, and nothing
is appended; once a query line has been accumulated a `"use "` line is
handled like any other body line: dropped when it matches the
session-variable pattern, appended to `query` otherwise. -/
theorem C6_use_directive_amended :
    ∀ (opt : Options) (ss : Nat → Bool) (st : PState) (line : List Char),
      (("# admin").toList).isPrefixOf line = false → headerMatch line = false →
      (st.queryLines = 0 → (("use ").toList).isPrefixOf line = true →
        parseQuery opt ss st line =
          .ok ({ st with event := { st.event with
            db := trimRightSemi (trimPre line (("use ").toList)) } }, [])) ∧
      (0 < st.queryLines →
        (setMatch line = true → parseQuery opt ss st line = .ok (st, [])) ∧
        (setMatch line = false →
          parseQuery opt ss st line =
            .ok ({ st with
                     queryLines := st.queryLines + 1,
                     event := { st.event with
                                  query := st.event.query ++ '\n' :: line } },
              []))) := by
  intro opt ss st line hadm hm
  constructor
  · intro hq0 hpre
    rw [parseQuery, if_neg (by simp only [hadm]; simp), if_neg (by simp only [hm]; simp),
      if_pos (by simp only [hq0, hpre]; simp)]
  · intro hql
    have hq0 : ¬ st.queryLines = 0 := Nat.pos_iff_ne_zero.mp hql
    constructor
    · intro hset
      rw [parseQuery, if_neg (by simp only [hadm]; simp), if_neg (by simp only [hm]; simp),
        if_neg (by simp only [hq0]; simp), if_pos hset]
    · intro hset
      rw [parseQuery, if_neg (by simp only [hadm]; simp), if_neg (by simp only [hm]; simp),
        if_neg (by simp only [hq0]; simp), if_neg (by simp only [hset]; simp), if_pos hql]

theorem C6_use_directive_amended_witness :
    parseQuery wOpt wNo { initState wOpt with headerLines := 1 }
        (("use test;;").toList) =
      .ok ({ { initState wOpt with headerLines := 1 } with
        event := { (initState wOpt).event with db := ("test").toList } }, []) ∧
    parseQuery wOpt wNo wStA2 (("use x SET timestamp").toList) =
      .ok (wStA2, []) :=
  ⟨(C6_use_directive_amended wOpt wNo { initState wOpt with headerLines := 1 }
      (("use test;;").toList) (by decide) (by decide)).1 rfl (by decide),
   ((C6_use_directive_amended wOpt wNo wStA2 (("use x SET timestamp").toList)
      (by decide) (by decide)).2 (by decide)).1 (by decide)⟩

/-- Input refuting C9 as stated: the schema metric value carries a bare
trailing `';'` with no newline after it. -/
def cexSchemaLines : List (List Char) :=
  [("# Query_time: 1 Schema: mydb;").toList, ("SELECT 1").toList]

/-- The parser state after the first line of `cexSchemaLines`. -/
def cexStD1 : PState :=
  { inHeader := true, inQuery := false, headerLines := 1, queryLines := 0,
    bytesRead := 30, lineOffset := 0, stopped := false, sends := 0,
    event := { newEvent with
                 db := ("mydb;").toList,
                 timeMetrics := [(qtKey, 1)] } }

/-- The parser state after both lines of `cexSchemaLines`. -/
def cexStD2 : PState :=
  { inHeader := false, inQuery := true, headerLines := 1, queryLines := 1,
    bytesRead := 39, lineOffset := 31, stopped := false, sends := 0,
    event := { newEvent with
                 db := ("mydb;").toList,
                 query := ("SELECT 1").toList,
                 timeMetrics := [(qtKey, 1)] } }

/-- C9 as stated is false: the finalizer trims only the exact two-character
suffix `";\n"` from `db`, so an accumulated `db` of `"mydb;"` is emitted
unchanged, not as `"mydb"`. -/
theorem C9_counterexample :
    (emitted (start wOpt wNo wNo cexSchemaLines)).map Event.db =
      [("mydb;").toList] ∧
    (emitted (start wOpt wNo wNo cexSchemaLines)).map Event.db ≠
      [("mydb").toList] := by
  have h1 : stepLine wOpt wNo (initState wOpt)
      (("# Query_time: 1 Schema: mydb;").toList) = .ok (cexStD1, []) := rfl
  have h2 : stepLine wOpt wNo cexStD1 (("SELECT 1").toList) =
      .ok (cexStD2, []) := rfl
  have hr : runLines wOpt wNo wNo (initState wOpt) 0 cexSchemaLines =
      .ok (cexStD2, []) :=
    runLines_cons_ok rfl rfl h1
      (runLines_cons_ok rfl rfl h2 (runLines_nil_ok rfl rfl))
  have hsome : lookupA cexStD2.event.timeMetrics qtKey = some 1 := by decide
  have hs := start_flush_emit hr rfl (by decide) hsome rfl
  have hmap : (emitted (start wOpt wNo wNo cexSchemaLines)).map Event.db =
      [("mydb;").toList] := by
    rw [hs]
    decide
  exact ⟨hmap, by rw [hmap]; decide⟩

/-- The query accumulation step of `parseQuery`'s final branch (source lines
286–291), as a pure fold step on (accumulated query, accumulated count). -/
def accStep (p : List Char × Nat) (line : List Char) : List Char × Nat :=
  (if 0 < p.2 then p.1 ++ '\n' :: line else line, p.2 + 1)

/-- Lines joined in original order by a newline separator (the spec's words
for the reconstructed query body). -/
def joinNL : List (List Char) → List Char
  | [] => []
  | [l] => l
  | l :: rest => l ++ '\n' :: joinNL rest

theorem joinNL_cons_append (q l : List Char) (t : List (List Char)) :
    joinNL ((q ++ '\n' :: l) :: t) = q ++ '\n' :: joinNL (l :: t) := by
  cases t with
  | nil => rfl
  | cons x xs => simp [joinNL]

theorem accStep_fold_aux :
    ∀ (rest : List (List Char)) (q : List Char) (n : Nat), 0 < n →
      (rest.foldl accStep (q, n)).1 = joinNL (q :: rest) := by
  intro rest
  induction rest with
  | nil => intro q n _; rfl
  | cons l t ih =>
    intro q n hn
    rw [List.foldl_cons]
    show (t.foldl accStep (accStep (q, n) l)).1 = joinNL (q :: l :: t)
    rw [show accStep (q, n) l = (q ++ '\n' :: l, n + 1) by
      simp [accStep, hn]]
    rw [ih (q ++ '\n' :: l) (n + 1) (Nat.succ_pos n)]
    exact joinNL_cons_append q l t

/-- Folding the accumulation step over the body lines reconstructs them in
original order joined by newline. -/
theorem accStep_fold_joinNL (ls : List (List Char)) (hne : ls ≠ []) :
    (ls.foldl accStep ([], 0)).1 = joinNL ls := by
  cases ls with
  | nil => exact absurd rfl hne
  | cons l t =>
    rw [List.foldl_cons]
    show (t.foldl accStep (accStep ([], 0) l)).1 = joinNL (l :: t)
    rw [show accStep ([], 0) l = (l, 1) by simp [accStep]]
    exact accStep_fold_aux t l 1 (by decide)

/-- C9 (amended): an emitted event's `query` is the accumulated body with
exactly one trailing `';'` stripped, where accumulation is the `accStep`
fold — original line order joined by newline; and its `db` is the
accumulated `db` with the exact suffix `";\n"` removed (a bare trailing
`';'` without a newline artifact is kept). -/
theorem C9_emitted_cleanup_amended :
    (∀ (ss : Nat → Bool) (iH iQ : Bool) (st : PState) (v : Rat),
      lookupA st.event.timeMetrics qtKey = some v → ss st.sends = false →
      sendEvent ss iH iQ st =
        .ok (resetFor iH iQ { st with sends := st.sends + 1 },
          [cleaned st.event]) ∧
      (cleaned st.event).db = trimSuffixL st.event.db ((";\n").toList) ∧
      (cleaned st.event).query = trimSuffixL st.event.query ((";").toList)) ∧
    (∀ (opt : Options) (ss : Nat → Bool) (st : PState) (line : List Char),
      (("# admin").toList).isPrefixOf line = false → headerMatch line = false →
      ¬ (st.queryLines = 0 ∧ (("use ").toList).isPrefixOf line = true) →
      setMatch line = false →
      parseQuery opt ss st line =
        .ok ({ st with
          queryLines := (accStep (st.event.query, st.queryLines) line).2,
          event := { st.event with
            query := (accStep (st.event.query, st.queryLines) line).1 } }, [])) ∧
    (∀ ls : List (List Char), ls ≠ [] →
      (ls.foldl accStep ([], 0)).1 = joinNL ls) := by
  refine ⟨?_, ?_, accStep_fold_joinNL⟩
  · intro ss iH iQ st v hsome hss
    exact ⟨sendEvent_emit hsome hss, rfl, rfl⟩
  · intro opt ss st line hadm hm hnu hset
    rw [parseQuery, if_neg (by simp only [hadm]; simp), if_neg (by simp only [hm]; simp),
      if_neg (by simpa using hnu), if_neg (by simp only [hset]; simp)]
    by_cases hql : 0 < st.queryLines
    · rw [if_pos hql]
      simp only [accStep, if_pos hql]
    · rw [if_neg hql]
      simp only [accStep, if_neg hql]

theorem C9_emitted_cleanup_amended_witness :
    sendEvent wNo false false wStA2 =
      .ok (resetFor false false { wStA2 with sends := wStA2.sends + 1 },
        [cleaned wStA2.event]) ∧
    (cleaned wStA2.event).query = ("SELECT 1").toList ∧
    (joinNL [("a").toList, ("b").toList] = ("a\nb").toList) :=
  ⟨((C9_emitted_cleanup_amended.1 wNo false false wStA2 1 (by decide) rfl)).1,
   by decide, by decide⟩

/-- C2 counterexample: reading `wLines1` with `start_offset = 5`, the very
first line read in the session does get the off-by-one increment — the
emitted event's offset is 6 (the 5 resumed bytes, plus one), not 5 as "not
for the first line, regardless of start_offset" would require. -/
theorem C2_counterexample :
    (emitted (start wOpt5 wNo wNo wLines1)).map Event.offset = [6] ∧
    (emitted (start wOpt5 wNo wNo wLines1)).map Event.offset ≠ [5] := by
  have h1 : stepLine wOpt5 wNo (initState wOpt5) (("# Query_time: 1").toList) =
      .ok (cexStE1, []) := rfl
  have h2 : stepLine wOpt5 wNo cexStE1 (("SELECT 1;").toList) =
      .ok (cexStE2, []) := rfl
  have hr : runLines wOpt5 wNo wNo (initState wOpt5) 0 wLines1 =
      .ok (cexStE2, []) :=
    runLines_cons_ok rfl rfl h1
      (runLines_cons_ok rfl rfl h2 (runLines_nil_ok rfl rfl))
  have hsome : lookupA cexStE2.event.timeMetrics qtKey = some 1 := by decide
  have hs := start_flush_emit hr rfl (by decide) hsome rfl
  have hmap : (emitted (start wOpt5 wNo wNo wLines1)).map Event.offset = [6] := by
    rw [hs]
    rfl
  exact ⟨hmap, by rw [hmap]; decide⟩

/-- C2 (amended): without `uint64` wrap-around, each line advances the byte
counter by the line length plus one, and the line's computed offset is the
byte count consumed before the line, incremented by exactly one whenever
that count is nonzero — including a first line resumed at a nonzero
`start_offset`; an event records the computed offset of its first header
line; the finalizer emits events carrying the recorded offset; and a whole
run's emitted offsets are non-decreasing. -/
theorem C2_offsets_amended :
    (∀ (st : PState) (line : List Char),
      st.bytesRead + (line.length + 1) < W →
      (advanceOffsets st line).bytesRead = st.bytesRead + (line.length + 1) ∧
      (advanceOffsets st line).lineOffset =
        (if st.bytesRead = 0 then 0 else st.bytesRead + 1)) ∧
    (∀ (opt : Options) (ss : Nat → Bool) (st st' : PState) (line : List Char)
      (evs : List Event),
      headerMatch line = true →
      parseHeaderMain opt ss st line = .ok (st', evs) →
      st'.event.offset =
        (if st.headerLines = 0 then st.lineOffset else st.event.offset)) ∧
    (∀ (ss : Nat → Bool) (iH iQ : Bool) (st st' : PState) (evs : List Event),
      sendEvent ss iH iQ st = .ok (st', evs) →
      ∀ e ∈ evs, e.offset = st.event.offset) ∧
    (∀ (opt : Options) (cs ss : Nat → Bool) (lines : List (List Char))
      (st' : PState) (evs : List Event),
      start opt cs ss lines = .ok (st', evs) →
      opt.startOffset + totalBytes lines < W →
      List.Sorted (· ≤ ·) (evs.map Event.offset)) := by
  refine ⟨?_, ?_, ?_, ?_⟩
  · intro st line hW
    exact advanceOffsets_eq hW
  · intro opt ss st st' line evs hm h
    exact (parseHeaderMain_char hm h).2.2.2.2.2.2.2
  · intro ss iH iQ st st' evs h e he
    obtain ⟨hq, heq⟩ := (sendEvent_char h).2.2.2.2.2.2.2 e he
    rw [heq]
    rfl
  · intro opt cs ss lines st' evs h hW
    exact start_off h hW

theorem C2_offsets_amended_witness :
    ((advanceOffsets (initState wOpt5) (("# Query_time: 1").toList)).bytesRead =
       (initState wOpt5).bytesRead + ((("# Query_time: 1").toList).length + 1) ∧
     (advanceOffsets (initState wOpt5) (("# Query_time: 1").toList)).lineOffset =
       (if (initState wOpt5).bytesRead = 0 then 0
         else (initState wOpt5).bytesRead + 1)) ∧
    List.Sorted (· ≤ ·) (([cleaned wStA2.event]).map Event.offset) :=
  ⟨C2_offsets_amended.1 (initState wOpt5) (("# Query_time: 1").toList) (by decide),
   C2_offsets_amended.2.2.2 wOpt wNo wNo wLines1
     (resetFor false false { wStA2 with sends := wStA2.sends + 1 })
     ([cleaned wStA2.event]) wLines1_start (by decide)⟩

end SlowLog
